import Mathlib

/-!
# Buddy allocator (`buddy.c`): shallow embedding and verification

The C program keeps three globals: the arena `g_memory` (2^MAX_ORDER bytes), the
descriptor table `g_pages` (one `page_t` per page) and the free-list heads
`free_area[MAX_ORDER+1]`.  The embedding passes them around as one `State`.

Modelling conventions.

* Addresses are byte offsets from `g_memory`; `NULL` is `none`.
* A list node is identified with the slot number of the descriptor that embeds it, and each
  free list is the sequence of its members from `head.next` onwards.  The list utility
  (`list.h`) is not among the sources; its operations are modelled from its interface.
* `g_pages` and `free_area` are total maps.  A slot number `≥ n_pages` denotes the memory
  behind the end of the table: `split` called with order `MAX_ORDER` writes there, and the
  model lets the write land in that slot.  The look-up loops of `buddy_alloc` and `split`
  only range over `j < n_pages`, exactly as in the source, so such a slot is never found
  by them.
* An operation returns `none` when the C code would dereference a pointer that its
  look-up loop left unset (no descriptor of the table is the head of the list), when
  `merge` would raise an order out of `0 .. MAX_ORDER` and link the descriptor into a head
  that `free_area` does not have, or when the recursion budget of the model is used up.
  For `buddy_alloc` the budget is never the reason (`buddy_alloc_fuel_stable`,
  `alloc_run_bounded`); for `merge` it is not the reason as long as the descriptors
  involved have orders from `MIN_ORDER` upwards (`merge_run_total`).
* `int` values are unbounded integers.  The only arithmetic on `size` is `2*size`, which
  is evaluated only when `size ≤ 2^MAX_ORDER`.
-/

namespace Buddy

/-! ## Constants and address arithmetic -/

def MIN_ORDER : Int := 12

def MAX_ORDER : Int := 20

/-- The C expression `1 << o`. -/
def shl1 (o : Int) : Nat := 1 <<< o.toNat

def PAGE_SIZE : Nat := shl1 MIN_ORDER

/-- Number of entries of `g_pages`: `(1<<MAX_ORDER)/PAGE_SIZE`. -/
def n_pages : Nat := shl1 MAX_ORDER / PAGE_SIZE

/-- Page index to address (offset from `g_memory`). -/
def PAGE_TO_ADDR (page_idx : Nat) : Nat := page_idx * PAGE_SIZE

/-- Address to page index. -/
def ADDR_TO_PAGE (addr : Nat) : Nat := addr / PAGE_SIZE

/-- Find buddy address: the offset with bit `o` flipped. -/
def BUDDY_ADDR (addr : Nat) (o : Int) : Nat := addr ^^^ shl1 o

/-! ## Data model -/

/-- Page descriptor; the embedded list node is represented by list membership. -/
structure page_t where
  page_idx : Nat
  order : Int

/-- Allocator state: the free lists (by order) and the descriptor slots. -/
structure State where
  free_area : Int → List Nat
  g_pages : Nat → page_t

/-- The orders `MIN_ORDER .. MAX_ORDER`, in loop order. -/
def orders : List Int :=
  (List.range (MAX_ORDER - MIN_ORDER + 1).toNat).map (fun k => MIN_ORDER + (k : Int))

/-! ## List utility

Modelled from the spec: the intrusive list utility `list.h` (`init_node`, `add_head`,
`add_tail`, `remove_and_reset`, `move`, `move_tail`, `is_empty`), which is not part of the
sources.  A node is linked when it is a member of one of the lists
`free_area[MIN_ORDER..MAX_ORDER]`. -/

/-- Modelled from the spec: `list_empty(&free_area[o])`, the head has no member. -/
def list_empty_head (o : Int) (s : State) : Bool := (s.free_area o).isEmpty

/-- Modelled from the spec: `list_empty(&g_pages[n].list)`, true iff the node is not
currently linked into any list. -/
def list_empty_node (n : Nat) (s : State) : Bool :=
  orders.all (fun o => !(s.free_area o).contains n)

/-- Modelled from the spec: `list_add(&g_pages[n].list, &free_area[o])`, insertion right
after the head. -/
def list_add (n : Nat) (o : Int) (s : State) : State :=
  { s with free_area := fun k => if k = o then n :: s.free_area k else s.free_area k }

/-- Modelled from the spec: `list_add_tail(&g_pages[n].list, &free_area[o])`, insertion
right before the head. -/
def list_add_tail (n : Nat) (o : Int) (s : State) : State :=
  { s with free_area := fun k => if k = o then s.free_area k ++ [n] else s.free_area k }

/-- Modelled from the spec: `list_del_init(&g_pages[n].list)`, the node leaves the list it
is in and is reset to the unlinked state. -/
def list_del_init (n : Nat) (s : State) : State :=
  { s with free_area := fun k => (s.free_area k).erase n }

/-- Modelled from the spec: `list_move`, removal followed by `list_add`. -/
def list_move (n : Nat) (o : Int) (s : State) : State :=
  list_add n o (list_del_init n s)

/-- Modelled from the spec: `list_move_tail`, removal followed by `list_add_tail`. -/
def list_move_tail (n : Nat) (o : Int) (s : State) : State :=
  list_add_tail n o (list_del_init n s)

/-- The assignment `g_pages[n].order = v`. -/
def set_order (n : Nat) (v : Int) (s : State) : State :=
  { s with g_pages := fun j => if j = n then { s.g_pages j with order := v } else s.g_pages j }

/-- The look-up loop `for (j = 0; j < n_pages; j++) if (free_area[o].next == &g_pages[j].list)`:
the descriptor of the table whose node is the first member of `free_area[o]`, if any. -/
def find_head (o : Int) (s : State) : Option Nat :=
  match s.free_area o with
  | [] => none
  | h :: _ => if h < n_pages then some h else none

/-! ## The allocator -/

/-- The function `buddy_init`: every descriptor of the table gets its own index, order `-1`
and a fresh (unlinked) node, the heads `MIN_ORDER..MAX_ORDER` are emptied, and page 0
is added to `free_area[MAX_ORDER]` with order `MAX_ORDER`. -/
def buddy_init (s : State) : State :=
  { free_area := fun k =>
      if k = MAX_ORDER then [0]
      else if MIN_ORDER ≤ k ∧ k ≤ MAX_ORDER then []
      else s.free_area k
    g_pages := fun j =>
      if j = 0 then { page_idx := 0, order := MAX_ORDER }
      else if j < n_pages then { page_idx := j, order := -1 }
      else s.g_pages j }

/-- The function `split`. -/
def split (order : Int) (s : State) : Option State :=
  match find_head order s with
  | none => none
  | some free_page =>
    let buddy_page_idx :=
      ADDR_TO_PAGE (BUDDY_ADDR (PAGE_TO_ADDR (s.g_pages free_page).page_idx) order)
    let s1 := list_move free_page (order - 1) s
    let s2 := list_add_tail buddy_page_idx (order - 1) s1
    let s3 := set_order free_page (order - 1) s2
    some (set_order buddy_page_idx (order - 1) s3)

/-- The loop header and guard of `buddy_alloc`: the first `i` from `i` upwards (at most
`n` iterations) with `!list_empty(&free_area[i]) && (1<<i) >= size`. -/
def alloc_scan (size : Int) (s : State) : Nat → Int → Option Int
  | 0, _ => none
  | n + 1, i =>
    if list_empty_head i s = false ∧ size ≤ (shl1 i : Int) then some i
    else alloc_scan size s n (i + 1)

/-- The scan of `buddy_alloc` over `i = MIN_ORDER .. MAX_ORDER`. -/
def first_fit (size : Int) (s : State) : Option Int :=
  alloc_scan size s (MAX_ORDER - MIN_ORDER + 1).toNat MIN_ORDER

/-- The function `buddy_alloc`, with a budget for its self-call.  The result is the returned
address (`none` for `NULL`) and the new state. -/
def buddy_alloc_fuel : Nat → Int → State → Option (Option Nat × State)
  | 0, _, _ => none
  | fuel + 1, size, s =>
    match first_fit size s with
    | none => some (none, s)
    | some i =>
      if i ≠ MIN_ORDER ∧ 2 * size ≤ (shl1 i : Int) then
        match split i s with
        | none => none
        | some s1 => buddy_alloc_fuel fuel size s1
      else
        match find_head i s with
        | none => none
        | some free_page =>
          some (some (PAGE_TO_ADDR (s.g_pages free_page).page_idx),
                list_del_init free_page s)

/-- The function `buddy_alloc`: each self-call follows a `split` that moves the search one
order down, so `MAX_ORDER - MIN_ORDER + 1` levels are enough. -/
def buddy_alloc (size : Int) (s : State) : Option (Option Nat × State) :=
  buddy_alloc_fuel (MAX_ORDER - MIN_ORDER + 1).toNat size s

/-- The function `merge`, with a budget for its self-call.  The array `free_area` has the
heads `0 .. MAX_ORDER`: when the incremented order is not among them, the head
`free_area[order]` that `list_move_tail` is given does not exist and the call has no
result. -/
def merge_fuel : Nat → Nat → State → Option State
  | 0, _, _ => none
  | fuel + 1, addr, s =>
    let block_page_idx := ADDR_TO_PAGE addr
    if (s.g_pages block_page_idx).order = MAX_ORDER then some s
    else
      let buddy_page_idx := ADDR_TO_PAGE (BUDDY_ADDR addr (s.g_pages block_page_idx).order)
      if list_empty_node buddy_page_idx s then some s
      else if block_page_idx > buddy_page_idx then
        let s1 := list_del_init block_page_idx s
        let s2 := set_order buddy_page_idx ((s1.g_pages buddy_page_idx).order + 1) s1
        if 0 ≤ (s2.g_pages buddy_page_idx).order ∧
            (s2.g_pages buddy_page_idx).order ≤ MAX_ORDER then
          let s3 := list_move_tail buddy_page_idx (s2.g_pages buddy_page_idx).order s2
          merge_fuel fuel (PAGE_TO_ADDR buddy_page_idx) s3
        else none
      else
        let s1 := list_del_init buddy_page_idx s
        let s2 := set_order block_page_idx ((s1.g_pages block_page_idx).order + 1) s1
        if 0 ≤ (s2.g_pages block_page_idx).order ∧
            (s2.g_pages block_page_idx).order ≤ MAX_ORDER then
          let s3 := list_move_tail block_page_idx (s2.g_pages block_page_idx).order s2
          merge_fuel fuel (PAGE_TO_ADDR block_page_idx) s3
        else none

/-- Number of descriptors linked in the free lists `MIN_ORDER..MAX_ORDER`. -/
def linked_count (s : State) : Nat :=
  (orders.map (fun o => (s.free_area o).length)).sum

/-- Budget for the self-calls of `merge`: every combining step unlinks a descriptor, so
twice the number of linked descriptors plus one is enough (`merge_run_total`). -/
def merge_budget (s : State) : Nat := 2 * linked_count s + 1

/-- The function `merge`. -/
def merge (addr : Nat) (s : State) : Option State :=
  merge_fuel (merge_budget s + 1) addr s

/-- The function `buddy_free`. -/
def buddy_free (addr : Nat) (s : State) : Option State :=
  let block_page_idx := ADDR_TO_PAGE addr
  merge addr (list_add block_page_idx (s.g_pages block_page_idx).order s)

/-- The function `buddy_dump`: per order, the number of members of the free list and the
block size in KiB. -/
def buddy_dump (s : State) : List (Nat × Nat) :=
  orders.map (fun o => ((s.free_area o).length, shl1 o / 1024))

/-- All-zero memory, the content of the globals before `buddy_init` runs. -/
def zero_state : State :=
  { free_area := fun _ => [], g_pages := fun _ => { page_idx := 0, order := 0 } }

/-! ## Specification vocabulary -/

/-- An outstanding allocation: the returned address and the order recorded in the
descriptor of the returned block when `buddy_alloc` returned. -/
abbrev Grant := Nat × Int

/-- States reachable from `buddy_init` by `buddy_alloc` calls (of any size) and `buddy_free`
calls on outstanding addresses, together with the outstanding allocations.  A call that
has no result in the model (its look-up loop finds no descriptor of the table) is not a
step; `buddy_free` of an outstanding address always has a result (`buddy_free_out`). -/
inductive Reach : State → List Grant → Prop
  | init (s0 : State) : Reach (buddy_init s0) []
  | alloc {s : State} {out : List Grant} {size : Int} {addr : Nat} {s1 : State} :
      Reach s out → buddy_alloc size s = some (some addr, s1) →
      Reach s1 ((addr, (s1.g_pages (ADDR_TO_PAGE addr)).order) :: out)
  | alloc_fail {s : State} {out : List Grant} {size : Int} {s1 : State} :
      Reach s out → buddy_alloc size s = some (none, s1) → Reach s1 out
  | free {s : State} {out : List Grant} {a : Grant} {s1 : State} :
      Reach s out → a ∈ out → buddy_free a.1 s = some s1 → Reach s1 (out.erase a)

/-- A tracked block: a FREE descriptor `p` linked in `free_area[o]`, or an ALLOCATED
(outstanding) descriptor `p` of order `o`. -/
def tracked (s : State) (out : List Grant) (p : Nat) (o : Int) : Prop :=
  (o ∈ orders ∧ p ∈ s.free_area o) ∨ (PAGE_TO_ADDR p, o) ∈ out

/-- The pages of a block of order `o` starting at page `p`: `2^(o-MIN_ORDER)` pages. -/
def covers (p : Nat) (o : Int) (page : Nat) : Prop :=
  p ≤ page ∧ page < p + shl1 (o - MIN_ORDER)

/-- The partition property: every page of the arena lies in exactly one tracked block and
no tracked block extends outside the arena. -/
def Partition (s : State) (out : List Grant) : Prop :=
  (∀ page, page < n_pages →
    ∃ p o, tracked s out p o ∧ covers p o page ∧
      ∀ q o1, tracked s out q o1 → covers q o1 page → q = p ∧ o1 = o) ∧
  (∀ p o, tracked s out p o → p + shl1 (o - MIN_ORDER) ≤ n_pages)

/-- Free bytes as reported by `buddy_dump`: the sum of count times block size. -/
def free_bytes (s : State) : Nat :=
  ((buddy_dump s).map (fun c => c.1 * (c.2 * 1024))).sum

/-- Bytes held by the outstanding allocations: the sum of `2^(granted order)`. -/
def out_bytes (out : List Grant) : Nat :=
  (out.map (fun a => shl1 a.2)).sum

/-- The free-list/order invariant: a descriptor linked in `free_area[o]` is linked in no
other list, only once, and its `order` field is `o`. -/
def ListOrderInv (s : State) : Prop :=
  (∀ o ∈ orders, (s.free_area o).Nodup) ∧
  (∀ o ∈ orders, ∀ p ∈ s.free_area o, (s.g_pages p).order = o)

/-- Successive `buddy_alloc` calls with the given sizes: the returned values, in call order,
and the final state. -/
def alloc_seq : List Int → State → Option (List (Option Nat) × State)
  | [], s => some ([], s)
  | size :: rest, s =>
    match buddy_alloc size s with
    | none => none
    | some (r, s1) =>
      match alloc_seq rest s1 with
      | none => none
      | some (rs, s2) => some (r :: rs, s2)

/-- The required order of a request as the spec words it: the smallest `o` with
`2^o ≥ size` and `o ≥ MIN_ORDER`; `MAX_ORDER + 1` when no order up to `MAX_ORDER` is
large enough. -/
def required_order (size : Int) : Int :=
  (orders.find? (fun o => decide (size ≤ (shl1 o : Int)))).getD (MAX_ORDER + 1)

/-- The state right after `buddy_init` on all-zero memory. -/
def state0 : State := buddy_init zero_state

/-- The state of a call result, or the given state when the call has no result. -/
def state_of (r : Option (Option Nat × State)) (dflt : State) : State :=
  match r with
  | some (_, s) => s
  | none => dflt

/-- The state after `buddy_init(); buddy_alloc(4096)`. -/
def state1 : State := state_of (buddy_alloc 4096 state0) state0

/-- The state after `buddy_init(); buddy_alloc(4096); buddy_alloc(4096)`. -/
def state2 : State := state_of (buddy_alloc 4096 state1) state1

/-- The state after `buddy_init(); buddy_alloc(1 << MAX_ORDER)`. -/
def state_full : State := state_of (buddy_alloc 1048576 state0) state0

/-- A state with a single free page: page 0 in `free_area[MIN_ORDER]`. -/
def state_one_page : State :=
  { free_area := fun k => if k = MIN_ORDER then [0] else []
    g_pages := fun j => { page_idx := j, order := if j = 0 then MIN_ORDER else -1 } }

/-- The span of descriptor slots that a tracked block of order `o` keeps to itself in every
reachable state: twice its number of pages (proof device for the invariant). -/
def claim (o : Int) : Nat := shl1 (o - MIN_ORDER + 1)

/-- The invariant of the reachable states. -/
structure Inv (s : State) (out : List Grant) : Prop where
  nodup_free : ∀ o ∈ orders, (s.free_area o).Nodup
  nodup_out : (out.map Prod.fst).Nodup
  out_page : ∀ a ∈ out, ∃ p, p < n_pages ∧ a.1 = PAGE_TO_ADDR p
  excl : ∀ o ∈ orders, ∀ p ∈ s.free_area o, PAGE_TO_ADDR p ∉ out.map Prod.fst
  order_eq : ∀ p o, tracked s out p o → (s.g_pages p).order = o
  range : ∀ p o, tracked s out p o → o ∈ orders
  align : ∀ p o, tracked s out p o → claim o ∣ p ∧ p + claim o ≤ 2 * n_pages
  disj : ∀ p o q o1, tracked s out p o → tracked s out q o1 → p ≠ q →
    p + claim o ≤ q ∨ q + claim o1 ≤ p
  page_idx : ∀ p, p < n_pages → (s.g_pages p).page_idx = p
  bytes : free_bytes s + out_bytes out = shl1 MAX_ORDER

end Buddy


namespace Buddy

/-! ## Arithmetic of orders and addresses -/

theorem orders_eq : orders = [12, 13, 14, 15, 16, 17, 18, 19, 20] := by decide

theorem mem_orders {o : Int} : o ∈ orders ↔ MIN_ORDER ≤ o ∧ o ≤ MAX_ORDER := by
  simp only [orders_eq, MIN_ORDER, MAX_ORDER, List.mem_cons, List.mem_singleton,
    List.not_mem_nil, or_false]
  omega

theorem PAGE_SIZE_eq : PAGE_SIZE = 4096 := by decide

theorem n_pages_eq : n_pages = 256 := by decide

theorem shl1_eq (o : Int) : shl1 o = 2 ^ o.toNat := by
  simp [shl1, Nat.shiftLeft_eq]

theorem shl1_pos (o : Int) : 0 < shl1 o := by
  rw [shl1_eq]; positivity

theorem shl1_succ {o : Int} (h : 0 ≤ o) : shl1 (o + 1) = 2 * shl1 o := by
  rw [shl1_eq, shl1_eq, Int.toNat_add h (by decide)]
  simp [pow_succ, Nat.mul_comm]

theorem shl1_mono {a b : Int} (h : a ≤ b) : shl1 a ≤ shl1 b := by
  rw [shl1_eq, shl1_eq]
  exact Nat.pow_le_pow_right (by decide) (Int.toNat_le_toNat h)

theorem shl1_add_min {o : Int} (h : MIN_ORDER ≤ o) :
    shl1 o = shl1 (o - MIN_ORDER) * PAGE_SIZE := by
  rw [shl1_eq, shl1_eq, PAGE_SIZE, shl1_eq, ← pow_add]
  congr 1
  simp only [MIN_ORDER] at *
  omega

theorem claim_eq {o : Int} (h : MIN_ORDER ≤ o) : claim o = 2 * shl1 (o - MIN_ORDER) := by
  unfold claim
  exact shl1_succ (by omega)

theorem claim_pred (o : Int) : claim (o - 1) = shl1 (o - MIN_ORDER) := by
  unfold claim
  congr 1
  omega

theorem xor_pow_of_dvd {a n : Nat} (h : 2 ^ (n + 1) ∣ a) : a ^^^ 2 ^ n = a + 2 ^ n := by
  obtain ⟨m, rfl⟩ := h
  apply Nat.eq_of_testBit_eq
  intro j
  have hlt : 2 ^ n < 2 ^ (n + 1) := Nat.pow_lt_pow_right (by decide) (Nat.lt_succ_self n)
  rw [Nat.testBit_xor, Nat.testBit_mul_pow_two, Nat.testBit_mul_pow_two_add m hlt j,
    Nat.testBit_two_pow]
  by_cases hj : j < n + 1
  · have : ¬ (j ≥ n + 1) := by omega
    simp [hj, this]
  · have h1 : j ≥ n + 1 := by omega
    have h2 : n ≠ j := by omega
    simp [hj, h1, h2]

/-- The buddy page index that `split` and `merge` compute for a block whose page index is
a multiple of twice its number of pages. -/
theorem buddy_page_of_dvd {p : Nat} {o : Int} (ho : MIN_ORDER ≤ o)
    (h : shl1 (o - MIN_ORDER + 1) ∣ p) :
    ADDR_TO_PAGE (BUDDY_ADDR (PAGE_TO_ADDR p) o) = p + shl1 (o - MIN_ORDER) := by
  obtain ⟨k, hk⟩ : ∃ k : Nat, o = MIN_ORDER + k := ⟨(o - MIN_ORDER).toNat, by omega⟩
  subst hk
  have e1 : (MIN_ORDER + (k : Int) - MIN_ORDER + 1).toNat = k + 1 := by omega
  have e2 : (MIN_ORDER + (k : Int) - MIN_ORDER).toNat = k := by omega
  have e3 : (MIN_ORDER + (k : Int)).toNat = k + 12 := by simp [MIN_ORDER]; omega
  simp only [shl1, Nat.shiftLeft_eq, one_mul, e1, e2, e3, ADDR_TO_PAGE, BUDDY_ADDR,
    PAGE_TO_ADDR, PAGE_SIZE] at *
  have e4 : MIN_ORDER.toNat = 12 := by decide
  rw [e4]
  have hd : 2 ^ (k + 12 + 1) ∣ p * 2 ^ 12 := by
    have : 2 ^ (k + 12 + 1) = 2 ^ (k + 1) * 2 ^ 12 := by ring
    rw [this]
    exact Nat.mul_dvd_mul_right h _
  rw [xor_pow_of_dvd hd]
  have : p * 2 ^ 12 + 2 ^ (k + 12) = (p + 2 ^ k) * 2 ^ 12 := by ring
  rw [this, Nat.mul_div_cancel _ (by positivity)]

theorem addr_to_page_to_addr (p : Nat) : ADDR_TO_PAGE (PAGE_TO_ADDR p) = p := by
  simp [ADDR_TO_PAGE, PAGE_TO_ADDR, PAGE_SIZE_eq]

theorem page_to_addr_inj {p q : Nat} (h : PAGE_TO_ADDR p = PAGE_TO_ADDR q) : p = q := by
  simp only [PAGE_TO_ADDR, PAGE_SIZE_eq] at h
  omega


/-! ## Free bytes -/

theorem shl1_cases {o : Int} (ho : o ∈ orders) :
    (o = 12 ∧ shl1 o = 4096) ∨ (o = 13 ∧ shl1 o = 8192) ∨ (o = 14 ∧ shl1 o = 16384) ∨
    (o = 15 ∧ shl1 o = 32768) ∨ (o = 16 ∧ shl1 o = 65536) ∨ (o = 17 ∧ shl1 o = 131072) ∨
    (o = 18 ∧ shl1 o = 262144) ∨ (o = 19 ∧ shl1 o = 524288) ∨
    (o = 20 ∧ shl1 o = 1048576) := by
  simp only [orders_eq, List.mem_cons, List.mem_singleton, List.not_mem_nil, or_false] at ho
  rcases ho with h | h | h | h | h | h | h | h | h <;> subst h
  · exact Or.inl ⟨rfl, rfl⟩
  · exact Or.inr (Or.inl ⟨rfl, rfl⟩)
  · exact Or.inr (Or.inr (Or.inl ⟨rfl, rfl⟩))
  · exact Or.inr (Or.inr (Or.inr (Or.inl ⟨rfl, rfl⟩)))
  · exact Or.inr (Or.inr (Or.inr (Or.inr (Or.inl ⟨rfl, rfl⟩))))
  · exact Or.inr (Or.inr (Or.inr (Or.inr (Or.inr (Or.inl ⟨rfl, rfl⟩)))))
  · exact Or.inr (Or.inr (Or.inr (Or.inr (Or.inr (Or.inr (Or.inl ⟨rfl, rfl⟩))))))
  · exact Or.inr (Or.inr (Or.inr (Or.inr (Or.inr (Or.inr (Or.inr (Or.inl ⟨rfl, rfl⟩)))))))
  · exact Or.inr (Or.inr (Or.inr (Or.inr (Or.inr (Or.inr (Or.inr (Or.inr ⟨rfl, rfl⟩)))))))

theorem free_bytes_eq (s : State) :
    free_bytes s =
      (s.free_area 12).length * 4096 + (s.free_area 13).length * 8192 +
      (s.free_area 14).length * 16384 + (s.free_area 15).length * 32768 +
      (s.free_area 16).length * 65536 + (s.free_area 17).length * 131072 +
      (s.free_area 18).length * 262144 + (s.free_area 19).length * 524288 +
      (s.free_area 20).length * 1048576 := by
  have e12 : shl1 12 = 4096 := rfl
  have e13 : shl1 13 = 8192 := rfl
  have e14 : shl1 14 = 16384 := rfl
  have e15 : shl1 15 = 32768 := rfl
  have e16 : shl1 16 = 65536 := rfl
  have e17 : shl1 17 = 131072 := rfl
  have e18 : shl1 18 = 262144 := rfl
  have e19 : shl1 19 = 524288 := rfl
  have e20 : shl1 20 = 1048576 := rfl
  simp only [free_bytes, buddy_dump, orders_eq, List.map_cons, List.map_nil, List.sum_cons,
    List.sum_nil, e12, e13, e14, e15, e16, e17, e18, e19, e20]
  omega

/-- Changing the length of one free list changes the free bytes by the block size. -/
theorem free_bytes_update {s s1 : State} {o : Int} (ho : o ∈ orders) (d e : Nat)
    (h1 : (s1.free_area o).length + e = (s.free_area o).length + d)
    (h2 : ∀ k ∈ orders, k ≠ o → (s1.free_area k).length = (s.free_area k).length) :
    free_bytes s1 + e * shl1 o = free_bytes s + d * shl1 o := by
  rw [free_bytes_eq, free_bytes_eq]
  have m12 := h2 12 (by decide)
  have m13 := h2 13 (by decide)
  have m14 := h2 14 (by decide)
  have m15 := h2 15 (by decide)
  have m16 := h2 16 (by decide)
  have m17 := h2 17 (by decide)
  have m18 := h2 18 (by decide)
  have m19 := h2 19 (by decide)
  have m20 := h2 20 (by decide)
  rcases shl1_cases ho with ⟨h, hs⟩ | ⟨h, hs⟩ | ⟨h, hs⟩ | ⟨h, hs⟩ | ⟨h, hs⟩ | ⟨h, hs⟩ |
    ⟨h, hs⟩ | ⟨h, hs⟩ | ⟨h, hs⟩ <;> subst h <;> rw [hs] <;> omega

/-! ## Effect of the list operations on the state -/

@[simp] theorem list_add_free_area (n : Nat) (o : Int) (s : State) (k : Int) :
    (list_add n o s).free_area k = if k = o then n :: s.free_area k else s.free_area k := rfl

@[simp] theorem list_add_g_pages (n : Nat) (o : Int) (s : State) :
    (list_add n o s).g_pages = s.g_pages := rfl

@[simp] theorem list_add_tail_free_area (n : Nat) (o : Int) (s : State) (k : Int) :
    (list_add_tail n o s).free_area k =
      if k = o then s.free_area k ++ [n] else s.free_area k := rfl

@[simp] theorem list_add_tail_g_pages (n : Nat) (o : Int) (s : State) :
    (list_add_tail n o s).g_pages = s.g_pages := rfl

@[simp] theorem list_del_init_free_area (n : Nat) (s : State) (k : Int) :
    (list_del_init n s).free_area k = (s.free_area k).erase n := rfl

@[simp] theorem list_del_init_g_pages (n : Nat) (s : State) :
    (list_del_init n s).g_pages = s.g_pages := rfl

@[simp] theorem set_order_free_area (n : Nat) (v : Int) (s : State) :
    (set_order n v s).free_area = s.free_area := rfl

@[simp] theorem set_order_g_pages (n : Nat) (v : Int) (s : State) (j : Nat) :
    (set_order n v s).g_pages j =
      if j = n then { s.g_pages j with order := v } else s.g_pages j := rfl

theorem set_order_page_idx (n : Nat) (v : Int) (s : State) (j : Nat) :
    ((set_order n v s).g_pages j).page_idx = (s.g_pages j).page_idx := by
  rw [set_order_g_pages]
  split <;> rfl

theorem free_bytes_set_order (n : Nat) (v : Int) (s : State) :
    free_bytes (set_order n v s) = free_bytes s := rfl

theorem free_bytes_list_add {o : Int} (ho : o ∈ orders) (n : Nat) (s : State) :
    free_bytes (list_add n o s) = free_bytes s + shl1 o := by
  have h := @free_bytes_update s (list_add n o s) o ho 1 0 (by simp)
    (by intro k _ hk; simp [hk])
  omega

theorem free_bytes_list_add_tail {o : Int} (ho : o ∈ orders) (n : Nat) (s : State) :
    free_bytes (list_add_tail n o s) = free_bytes s + shl1 o := by
  have h := @free_bytes_update s (list_add_tail n o s) o ho 1 0 (by simp)
    (by intro k _ hk; simp [hk])
  omega

theorem free_bytes_list_del_init {o : Int} (ho : o ∈ orders) {n : Nat} {s : State}
    (hn : n ∈ s.free_area o) (hother : ∀ k ∈ orders, k ≠ o → n ∉ s.free_area k) :
    free_bytes (list_del_init n s) + shl1 o = free_bytes s := by
  have hpos : 0 < (s.free_area o).length := List.length_pos_of_mem hn
  have h := @free_bytes_update s (list_del_init n s) o ho 0 1
    (by simp [List.length_erase_of_mem hn]; omega)
    (by intro k hk hko; simp [List.erase_of_not_mem (hother k hk hko)])
  omega

/-! ## The look-up and the scan -/

theorem find_head_some {o : Int} {s : State} {h : Nat} (hf : find_head o s = some h) :
    h < n_pages ∧ ∃ t, s.free_area o = h :: t := by
  unfold find_head at hf
  split at hf
  · exact absurd hf (by simp)
  · rename_i x t heq
    split at hf
    · rename_i hlt
      have : x = h := by simpa using hf
      subst this
      exact ⟨hlt, t, heq⟩
    · exact absurd hf (by simp)

theorem alloc_scan_some {size : Int} {s : State} :
    ∀ (n : Nat) (i j : Int), alloc_scan size s n i = some j →
      i ≤ j ∧ j < i + n ∧ s.free_area j ≠ [] ∧ size ≤ (shl1 j : Int) ∧
      ∀ k, i ≤ k → k < j → ¬ (s.free_area k ≠ [] ∧ size ≤ (shl1 k : Int)) := by
  intro n
  induction n with
  | zero => intro i j h; simp [alloc_scan] at h
  | succ n ih =>
    intro i j h
    unfold alloc_scan at h
    split at h
    · rename_i hc
      have hij : i = j := by simpa using h
      subst hij
      refine ⟨le_refl _, by omega, ?_, hc.2, ?_⟩
      · have := hc.1
        simp only [list_empty_head, List.isEmpty_eq_false] at this
        simpa using this
      · intro k h1 h2; omega
    · rename_i hc
      obtain ⟨h1, h2, h3, h4, h5⟩ := ih (i + 1) j h
      refine ⟨by omega, by omega, h3, h4, ?_⟩
      intro k hk1 hk2
      by_cases hki : k = i
      · subst hki
        intro hh
        apply hc
        refine ⟨?_, hh.2⟩
        simp only [list_empty_head]
        cases hl : s.free_area k with
        | nil => exact absurd hl hh.1
        | cons a t => rfl
      · exact h5 k (by omega) hk2

theorem alloc_scan_none {size : Int} {s : State} :
    ∀ (n : Nat) (i : Int), alloc_scan size s n i = none →
      ∀ k, i ≤ k → k < i + n → ¬ (s.free_area k ≠ [] ∧ size ≤ (shl1 k : Int)) := by
  intro n
  induction n with
  | zero => intro i _ k h1 h2; omega
  | succ n ih =>
    intro i h k hk1 hk2
    unfold alloc_scan at h
    split at h
    · exact absurd h (by simp)
    · rename_i hc
      by_cases hki : k = i
      · subst hki
        intro hh
        apply hc
        refine ⟨?_, hh.2⟩
        simp only [list_empty_head]
        cases hl : s.free_area k with
        | nil => exact absurd hl hh.1
        | cons a t => rfl
      · exact ih (i + 1) h k (by omega) (by omega)

theorem first_fit_some {size : Int} {s : State} {i : Int} (h : first_fit size s = some i) :
    i ∈ orders ∧ s.free_area i ≠ [] ∧ size ≤ (shl1 i : Int) ∧
      ∀ k ∈ orders, k < i → ¬ (s.free_area k ≠ [] ∧ size ≤ (shl1 k : Int)) := by
  obtain ⟨h1, h2, h3, h4, h5⟩ := alloc_scan_some _ _ _ h
  have e : ((MAX_ORDER - MIN_ORDER + 1).toNat : Int) = 9 := by decide
  rw [e] at h2
  refine ⟨mem_orders.2 ⟨h1, by simp only [MIN_ORDER, MAX_ORDER] at *; omega⟩, h3, h4, ?_⟩
  intro k hk hlt
  exact h5 k (mem_orders.1 hk).1 hlt

theorem first_fit_none {size : Int} {s : State} (h : first_fit size s = none) :
    ∀ k ∈ orders, ¬ (s.free_area k ≠ [] ∧ size ≤ (shl1 k : Int)) := by
  intro k hk
  have e : ((MAX_ORDER - MIN_ORDER + 1).toNat : Int) = 9 := by decide
  have hk2 := mem_orders.1 hk
  exact alloc_scan_none _ _ h k hk2.1 (by rw [e]; simp only [MIN_ORDER, MAX_ORDER] at *; omega)

/-! ## The invariant holds initially -/

theorem tracked_of_free {s : State} {out : List Grant} {p : Nat} {o : Int}
    (ho : o ∈ orders) (hp : p ∈ s.free_area o) : tracked s out p o := Or.inl ⟨ho, hp⟩

theorem tracked_of_out {s : State} {out : List Grant} {p : Nat} {o : Int}
    (h : (PAGE_TO_ADDR p, o) ∈ out) : tracked s out p o := Or.inr h

theorem claim_max : claim MAX_ORDER = 2 * n_pages := by decide

theorem claim_pos (o : Int) : 0 < claim o := shl1_pos _

theorem buddy_init_free_area (s0 : State) {o : Int} (ho : o ∈ orders) :
    (buddy_init s0).free_area o = if o = MAX_ORDER then [0] else [] := by
  have := mem_orders.1 ho
  simp only [buddy_init, if_pos this]

theorem tracked_init {s0 : State} {p : Nat} {o : Int} (h : tracked (buddy_init s0) [] p o) :
    p = 0 ∧ o = MAX_ORDER := by
  rcases h with ⟨ho, hp⟩ | h
  · rw [buddy_init_free_area s0 ho] at hp
    split at hp
    · rename_i h20
      exact ⟨by simpa using hp, h20⟩
    · simp at hp
  · simp at h

theorem Inv_init (s0 : State) : Inv (buddy_init s0) [] where
  nodup_free := by
    intro o ho
    rw [buddy_init_free_area s0 ho]
    split <;> simp
  nodup_out := by simp
  out_page := by simp
  excl := by simp
  order_eq := by
    intro p o h
    obtain ⟨rfl, rfl⟩ := tracked_init h
    rfl
  range := by
    intro p o h
    obtain ⟨rfl, rfl⟩ := tracked_init h
    decide
  align := by
    intro p o h
    obtain ⟨rfl, rfl⟩ := tracked_init h
    rw [claim_max]
    exact ⟨dvd_zero _, by omega⟩
  disj := by
    intro p o q o1 h1 h2 hne
    obtain ⟨rfl, rfl⟩ := tracked_init h1
    obtain ⟨rfl, rfl⟩ := tracked_init h2
    exact absurd rfl hne
  page_idx := by
    intro p hp
    simp only [buddy_init, if_pos hp]
    split
    · rename_i h0; exact h0.symm
    · rfl
  bytes := by
    rw [free_bytes_eq]
    simp only [out_bytes, List.map_nil, List.sum_nil]
    have e20 : shl1 MAX_ORDER = 1048576 := rfl
    rw [e20]
    simp [buddy_init, MAX_ORDER, MIN_ORDER]

/-! ## Taking the head of a free list preserves the invariant -/

theorem out_bytes_cons (a : Grant) (out : List Grant) :
    out_bytes (a :: out) = shl1 a.2 + out_bytes out := by
  simp [out_bytes]

theorem out_bytes_erase {a : Grant} {out : List Grant} (h : a ∈ out) :
    out_bytes (out.erase a) + shl1 a.2 = out_bytes out := by
  induction out with
  | nil => simp at h
  | cons b t ih =>
    by_cases hb : b = a
    · subst hb
      simp [out_bytes]
      omega
    · have ht : a ∈ t := by
        rcases List.mem_cons.1 h with h1 | h1
        · exact absurd h1.symm hb
        · exact h1
      have := ih ht
      rw [List.erase_cons_tail (by simpa using hb)]
      simp only [out_bytes_cons]
      omega

theorem not_mem_other_list {s : State} {out : List Grant} (hinv : Inv s out) {p : Nat}
    {o k : Int} (ho : o ∈ orders) (hp : p ∈ s.free_area o) (hk : k ∈ orders) (hne : k ≠ o) :
    p ∉ s.free_area k := by
  intro hpk
  have h1 := hinv.order_eq p o (tracked_of_free ho hp)
  have h2 := hinv.order_eq p k (tracked_of_free hk hpk)
  exact hne (by rw [← h2, h1])

theorem Inv_take {s : State} {out : List Grant} {i : Int} {h : Nat} (hinv : Inv s out)
    (hi : i ∈ orders) (hf : find_head i s = some h) :
    Inv (list_del_init h s) ((PAGE_TO_ADDR h, i) :: out) := by
  obtain ⟨hlt, t, ht⟩ := find_head_some hf
  have hmem : h ∈ s.free_area i := by rw [ht]; exact List.mem_cons_self _ _
  have htr : ∀ p o, tracked (list_del_init h s) ((PAGE_TO_ADDR h, i) :: out) p o →
      tracked s out p o := by
    intro p o hp
    rcases hp with ⟨ho, hp⟩ | hp
    · exact tracked_of_free ho (List.mem_of_mem_erase hp)
    · rcases List.mem_cons.1 hp with heq | hp
      · have h1 : PAGE_TO_ADDR p = PAGE_TO_ADDR h := congrArg Prod.fst heq
        have h2 : o = i := congrArg Prod.snd heq
        rw [page_to_addr_inj h1, h2]
        exact tracked_of_free hi hmem
      · exact tracked_of_out hp
  refine ⟨?_, ?_, ?_, ?_, ?_, ?_, ?_, ?_, ?_, ?_⟩
  · intro o ho
    exact (hinv.nodup_free o ho).erase h
  · simp only [List.map_cons, List.nodup_cons]
    exact ⟨hinv.excl i hi h hmem, hinv.nodup_out⟩
  · intro a ha
    rcases List.mem_cons.1 ha with rfl | ha
    · exact ⟨h, hlt, rfl⟩
    · exact hinv.out_page a ha
  · intro o ho p hp
    have hp2 := ((hinv.nodup_free o ho).mem_erase_iff).1 hp
    simp only [List.map_cons, List.mem_cons, not_or]
    refine ⟨?_, hinv.excl o ho p hp2.2⟩
    intro heq
    exact hp2.1 (page_to_addr_inj heq)
  · intro p o hp
    exact hinv.order_eq p o (htr p o hp)
  · intro p o hp
    exact hinv.range p o (htr p o hp)
  · intro p o hp
    exact hinv.align p o (htr p o hp)
  · intro p o q o1 hp hq hne
    exact hinv.disj p o q o1 (htr p o hp) (htr q o1 hq) hne
  · exact hinv.page_idx
  · have h1 := free_bytes_list_del_init hi hmem
      (fun k hk hne => not_mem_other_list hinv hi hmem hk hne)
    have h2 := hinv.bytes
    rw [out_bytes_cons]
    simp only
    omega

/-! ## Freeing an outstanding block preserves the invariant -/

theorem list_empty_node_true {n : Nat} {s : State}
    (h : ∀ k ∈ orders, n ∉ s.free_area k) : list_empty_node n s = true := by
  simp only [list_empty_node, List.all_eq_true]
  intro k hk
  simpa using h k hk

theorem list_empty_node_false {n : Nat} {s : State} {k : Int} (hk : k ∈ orders)
    (h : n ∈ s.free_area k) : list_empty_node n s = false := by
  rw [← Bool.not_eq_true]
  intro ht
  simp only [list_empty_node, List.all_eq_true] at ht
  exact (by simpa using ht k hk : n ∉ s.free_area k) h

/-- In a state that satisfies the invariant the slot that `merge` inspects for a tracked
block is not the start of any tracked block. -/
theorem buddy_untracked {s : State} {out : List Grant} (hinv : Inv s out) {p : Nat} {o : Int}
    (hp : tracked s out p o) (o1 : Int)
    (hq : tracked s out (p + shl1 (o - MIN_ORDER)) o1) : False := by
  have ho := mem_orders.1 (hinv.range p o hp)
  have hpos := shl1_pos (o - MIN_ORDER)
  have hc := claim_eq ho.1
  have hpos1 := claim_pos o1
  rcases hinv.disj p o _ o1 hp hq (by omega) with h | h <;> omega

theorem fuel_eq : (MAX_ORDER - MIN_ORDER + 1).toNat = 8 + 1 := by decide

theorem merge_fuel_stop (n : Nat) (addr : Nat) (s : State)
    (h : (s.g_pages (ADDR_TO_PAGE addr)).order = MAX_ORDER ∨
      list_empty_node
        (ADDR_TO_PAGE (BUDDY_ADDR addr (s.g_pages (ADDR_TO_PAGE addr)).order)) s = true) :
    merge_fuel (n + 1) addr s = some s := by
  unfold merge_fuel
  simp only
  by_cases h1 : (s.g_pages (ADDR_TO_PAGE addr)).order = MAX_ORDER
  · rw [if_pos h1]
  · rw [if_neg h1]
    rcases h with h | h
    · exact absurd h h1
    · rw [if_pos h]

/-- Freeing an outstanding block in a state that satisfies the invariant only links the
descriptor into the free list of its order: `merge` finds no linked buddy. -/
theorem buddy_free_out {s : State} {out : List Grant} (hinv : Inv s out) {a : Grant}
    (ha : a ∈ out) :
    buddy_free a.1 s = some (list_add (ADDR_TO_PAGE a.1) a.2 s) := by
  obtain ⟨p, hp, hap⟩ := hinv.out_page a ha
  have htr : tracked s out p a.2 := by
    apply tracked_of_out
    rw [← hap]
    exact ha
  have hord := hinv.order_eq p a.2 htr
  have hrange := mem_orders.1 (hinv.range p a.2 htr)
  have hal := hinv.align p a.2 htr
  unfold buddy_free merge merge_budget
  simp only [hap, addr_to_page_to_addr, hord]
  apply merge_fuel_stop
  simp only [list_add_g_pages, addr_to_page_to_addr, hord]
  by_cases hmax : a.2 = MAX_ORDER
  · exact Or.inl hmax
  · right
    rw [buddy_page_of_dvd hrange.1 hal.1]
    apply list_empty_node_true
    intro k hk hmem
    simp only [list_add_free_area] at hmem
    have hpos := shl1_pos (a.2 - MIN_ORDER)
    have hmem2 : p + shl1 (a.2 - MIN_ORDER) ∈ s.free_area k := by
      split at hmem
      · rcases List.mem_cons.1 hmem with h1 | h1
        · omega
        · exact h1
      · exact hmem
    exact buddy_untracked hinv htr k (tracked_of_free hk hmem2)

theorem Inv_free {s : State} {out : List Grant} (hinv : Inv s out) {a : Grant}
    (ha : a ∈ out) : Inv (list_add (ADDR_TO_PAGE a.1) a.2 s) (out.erase a) := by
  obtain ⟨p, hp, hap⟩ := hinv.out_page a ha
  have htr0 : tracked s out p a.2 := by
    apply tracked_of_out
    rw [← hap]
    exact ha
  have hrange := hinv.range p a.2 htr0
  have hnd : out.Nodup := List.Nodup.of_map _ hinv.nodup_out
  have hpfree : ∀ k ∈ orders, p ∉ s.free_area k := by
    intro k hk hmem
    apply hinv.excl k hk p hmem
    rw [← hap]
    exact List.mem_map_of_mem _ ha
  rw [hap, addr_to_page_to_addr]
  have htr : ∀ q o, tracked (list_add p a.2 s) (out.erase a) q o → tracked s out q o := by
    intro q o hq
    rcases hq with ⟨ho, hq⟩ | hq
    · simp only [list_add_free_area] at hq
      split at hq
      · rename_i hoa
        rcases List.mem_cons.1 hq with h1 | h1
        · rw [h1, hoa]; exact htr0
        · exact tracked_of_free ho h1
      · exact tracked_of_free ho hq
    · exact tracked_of_out (List.mem_of_mem_erase hq)
  refine ⟨?_, ?_, ?_, ?_, ?_, ?_, ?_, ?_, ?_, ?_⟩
  · intro o ho
    simp only [list_add_free_area]
    split
    · exact List.nodup_cons.2 ⟨hpfree o ho, hinv.nodup_free o ho⟩
    · exact hinv.nodup_free o ho
  · exact hinv.nodup_out.sublist ((List.erase_sublist a out).map Prod.fst)
  · intro b hb
    exact hinv.out_page b (List.mem_of_mem_erase hb)
  · intro o ho q hq hmem
    obtain ⟨b, hb, hb1⟩ := List.mem_map.1 hmem
    have hb2 := (hnd.mem_erase_iff).1 hb
    simp only [list_add_free_area] at hq
    have hq2 : q = p ∨ q ∈ s.free_area o := by
      split at hq
      · rcases List.mem_cons.1 hq with h1 | h1
        · exact Or.inl h1
        · exact Or.inr h1
      · exact Or.inr hq
    rcases hq2 with h1 | h1
    · subst h1
      have : b = a := by
        refine List.inj_on_of_nodup_map hinv.nodup_out hb2.2 ha ?_
        rw [hb1, hap]
      exact hb2.1 this
    · apply hinv.excl o ho q h1
      rw [← hb1]
      exact List.mem_map_of_mem _ hb2.2
  · intro q o hq
    simpa using hinv.order_eq q o (htr q o hq)
  · intro q o hq
    exact hinv.range q o (htr q o hq)
  · intro q o hq
    exact hinv.align q o (htr q o hq)
  · intro q o r o1 hq hr hne
    exact hinv.disj q o r o1 (htr q o hq) (htr r o1 hr) hne
  · exact hinv.page_idx
  · have h1 := free_bytes_list_add hrange p s
    have h2 := out_bytes_erase ha
    have h3 := hinv.bytes
    omega

/-! ## Splitting preserves the invariant -/

/-- The state that `split` produces from the head `h` of `free_area[i]` and the slot `q`
computed as its buddy. -/
theorem split_of_head {s : State} {out : List Grant} (hinv : Inv s out) {i : Int} {h : Nat}
    (hi : i ∈ orders) (hf : find_head i s = some h) :
    split i s = some (set_order (h + shl1 (i - MIN_ORDER)) (i - 1) (set_order h (i - 1)
      (list_add_tail (h + shl1 (i - MIN_ORDER)) (i - 1) (list_move h (i - 1) s)))) := by
  obtain ⟨hlt, t, ht⟩ := find_head_some hf
  have hmem : h ∈ s.free_area i := by rw [ht]; exact List.mem_cons_self _ _
  have htr : tracked s out h i := tracked_of_free hi hmem
  unfold split
  rw [hf]
  simp only [hinv.page_idx h hlt]
  rw [buddy_page_of_dvd (mem_orders.1 hi).1 (hinv.align h i htr).1]

theorem Inv_split {s : State} {out : List Grant} (hinv : Inv s out) {i : Int} {h : Nat}
    (hi : i ∈ orders) (hmin : i ≠ MIN_ORDER) (hf : find_head i s = some h) :
    Inv (set_order (h + shl1 (i - MIN_ORDER)) (i - 1) (set_order h (i - 1)
      (list_add_tail (h + shl1 (i - MIN_ORDER)) (i - 1) (list_move h (i - 1) s)))) out := by
  obtain ⟨hlt, t, ht⟩ := find_head_some hf
  have hmem : h ∈ s.free_area i := by rw [ht]; exact List.mem_cons_self _ _
  have hhi : tracked s out h i := tracked_of_free hi hmem
  have hr := mem_orders.1 hi
  have hi1 : i - 1 ∈ orders := mem_orders.2 ⟨by omega, by omega⟩
  have hc2 : claim i = 2 * shl1 (i - MIN_ORDER) := claim_eq hr.1
  have hc1 : claim (i - 1) = shl1 (i - MIN_ORDER) := claim_pred i
  have hcpos := shl1_pos (i - MIN_ORDER)
  have hal := hinv.align h i hhi
  generalize hq : h + shl1 (i - MIN_ORDER) = q at *
  have hqh : q ≠ h := by omega
  have hun : ∀ o1, ¬ tracked s out q o1 := by
    intro o1 h1
    rw [← hq] at h1
    exact buddy_untracked hinv hhi o1 h1
  have hfa : ∀ k, (set_order q (i - 1) (set_order h (i - 1)
      (list_add_tail q (i - 1) (list_move h (i - 1) s)))).free_area k =
      if k = i - 1 then h :: (s.free_area k).erase h ++ [q] else (s.free_area k).erase h := by
    intro k
    simp only [set_order_free_area, list_add_tail_free_area, list_move, list_add_free_area,
      list_del_init_free_area]
    split <;> rfl
  have hgp : ∀ j, (set_order q (i - 1) (set_order h (i - 1)
      (list_add_tail q (i - 1) (list_move h (i - 1) s)))).g_pages j =
      if j = q then { s.g_pages j with order := i - 1 }
      else if j = h then { s.g_pages j with order := i - 1 } else s.g_pages j := by
    intro j
    simp only [set_order_g_pages, list_add_tail_g_pages, list_move, list_add_g_pages,
      list_del_init_g_pages]
    split
    · split <;> rfl
    · rfl
  generalize set_order q (i - 1) (set_order h (i - 1)
      (list_add_tail q (i - 1) (list_move h (i - 1) s))) = s1 at hfa hgp ⊢
  have hmemE : ∀ k ∈ orders, ∀ p, p ∈ (s.free_area k).erase h → p ≠ h ∧ p ∈ s.free_area k :=
    fun k hk p hp => ((hinv.nodup_free k hk).mem_erase_iff).1 hp
  have hhout : PAGE_TO_ADDR h ∉ out.map Prod.fst := hinv.excl i hi h hmem
  have htr : ∀ p o, tracked s1 out p o →
      (o = i - 1 ∧ (p = h ∨ p = q)) ∨ (p ≠ h ∧ p ≠ q ∧ tracked s out p o) := by
    intro p o hp
    rcases hp with ⟨ho, hp⟩ | hp
    · rw [hfa] at hp
      split at hp
      · rename_i hoi
        simp only [List.cons_append, List.mem_cons, List.mem_append, List.mem_singleton,
          List.not_mem_nil, or_false] at hp
        rcases hp with h1 | h1 | h1
        · exact Or.inl ⟨hoi, Or.inl h1⟩
        · have h2 := hmemE o ho p h1
          have h3 : tracked s out p o := tracked_of_free ho h2.2
          refine Or.inr ⟨h2.1, ?_, h3⟩
          intro hpq
          exact hun o (hpq ▸ h3)
        · exact Or.inl ⟨hoi, Or.inr h1⟩
      · have h2 := hmemE o ho p hp
        have h3 : tracked s out p o := tracked_of_free ho h2.2
        refine Or.inr ⟨h2.1, ?_, h3⟩
        intro hpq
        exact hun o (hpq ▸ h3)
    · have h3 : tracked s out p o := tracked_of_out hp
      refine Or.inr ⟨?_, ?_, h3⟩
      · intro hph
        apply hhout
        rw [← hph]
        exact List.mem_map_of_mem Prod.fst hp
      · intro hpq
        exact hun o (hpq ▸ h3)
  refine ⟨?_, hinv.nodup_out, hinv.out_page, ?_, ?_, ?_, ?_, ?_, ?_, ?_⟩
  · intro o ho
    rw [hfa]
    have hE : ((s.free_area o).erase h).Nodup := (hinv.nodup_free o ho).erase h
    have hhE : h ∉ (s.free_area o).erase h := fun hm => (hmemE o ho h hm).1 rfl
    have hqE : q ∉ (s.free_area o).erase h :=
      fun hm => hun o (tracked_of_free ho (hmemE o ho q hm).2)
    split
    · simp only [List.cons_append, List.nodup_cons, List.mem_append, List.mem_singleton,
        not_or]
      refine ⟨⟨hhE, fun e => hqh e.symm⟩, ?_⟩
      rw [List.nodup_append]
      refine ⟨hE, List.nodup_singleton q, ?_⟩
      intro x hx1 hx2
      rw [List.mem_singleton] at hx2
      exact hqE (hx2 ▸ hx1)
    · exact hE
  · intro o ho p hp hout
    obtain ⟨b, hb, hb1⟩ := List.mem_map.1 hout
    have hbt : tracked s out p b.2 := by
      apply tracked_of_out
      rw [← hb1]
      exact hb
    rcases htr p o (tracked_of_free ho hp) with ⟨_, h1 | h1⟩ | ⟨_, _, h1⟩
    · exact hhout (h1 ▸ hout)
    · exact hun b.2 (h1 ▸ hbt)
    · rcases h1 with ⟨_, h2⟩ | h2
      · exact hinv.excl o ho p h2 hout
      · have h3 := hinv.order_eq p o (tracked_of_out h2)
        have h4 := hinv.nodup_out
        have : PAGE_TO_ADDR p ∈ out.map Prod.fst := hout
        rw [hfa] at hp
        have hpE : p ∈ (s.free_area o).erase h := by
          split at hp
          · simp only [List.cons_append, List.mem_cons, List.mem_append, List.mem_singleton,
              List.not_mem_nil, or_false] at hp
            rcases hp with h5 | h5 | h5
            · exact absurd (h5 ▸ hout) hhout
            · exact h5
            · exact absurd (h5 ▸ hbt) (hun b.2)
          · exact hp
        exact hinv.excl o ho p (hmemE o ho p hpE).2 hout
  · intro p o hp
    rw [hgp]
    rcases htr p o hp with ⟨ho, h1 | h1⟩ | ⟨h1, h2, h3⟩
    · rw [if_neg (by omega), if_pos h1, ho]
    · rw [if_pos h1, ho]
    · rw [if_neg h2, if_neg h1]
      exact hinv.order_eq p o h3
  · intro p o hp
    rcases htr p o hp with ⟨ho, _⟩ | ⟨_, _, h3⟩
    · rw [ho]; exact hi1
    · exact hinv.range p o h3
  · intro p o hp
    rcases htr p o hp with ⟨ho, h1 | h1⟩ | ⟨_, _, h3⟩
    · rw [ho, h1, hc1]
      refine ⟨?_, by omega⟩
      exact Dvd.dvd.trans ⟨2, by omega⟩ hal.1
    · rw [ho, h1, hc1, ← hq]
      refine ⟨?_, by omega⟩
      exact (Nat.dvd_add_right (Dvd.dvd.trans ⟨2, by omega⟩ hal.1)).2 (dvd_refl _)
    · exact hinv.align p o h3
  · intro p o r o1 hp hr1 hne
    have key : ∀ x ox, x ≠ h → tracked s out x ox → h + claim i ≤ x ∨ x + claim ox ≤ h :=
      fun x ox hx hxt => hinv.disj h i x ox hhi hxt (fun e => hx e.symm)
    rcases htr p o hp with ⟨ho, h1 | h1⟩ | ⟨h1, h2, h3⟩ <;>
      rcases htr r o1 hr1 with ⟨ho1, g1 | g1⟩ | ⟨g1, g2, g3⟩
    · exact absurd (h1.trans g1.symm) hne
    · subst ho ho1 h1 g1; rw [hc1]; omega
    · subst ho h1
      rcases key r o1 g1 g3 with h5 | h5 <;> rw [hc1] <;> omega
    · subst ho ho1 h1 g1; rw [hc1]; omega
    · exact absurd (h1.trans g1.symm) hne
    · subst ho h1
      rcases key r o1 g1 g3 with h5 | h5 <;> rw [hc1] <;> omega
    · subst ho1 g1
      rcases key p o h1 h3 with h5 | h5 <;> rw [hc1] <;> omega
    · subst ho1 g1
      rcases key p o h1 h3 with h5 | h5 <;> rw [hc1] <;> omega
    · exact hinv.disj p o r o1 h3 g3 hne
  · intro p hp
    rw [hgp]
    split
    · exact hinv.page_idx p hp
    · split
      · exact hinv.page_idx p hp
      · exact hinv.page_idx p hp
  · have hb : free_bytes s1 = free_bytes s := by
      have e1 := free_bytes_list_del_init hi hmem
        (fun k hk hne => not_mem_other_list hinv hi hmem hk hne)
      have e2 := free_bytes_list_add hi1 h (list_del_init h s)
      have e3 := free_bytes_list_add_tail hi1 q (list_add h (i - 1) (list_del_init h s))
      have e4 : shl1 i = 2 * shl1 (i - 1) := by
        have := shl1_succ (o := i - 1) (by simp only [MIN_ORDER] at hr; omega)
        rwa [sub_add_cancel] at this
      have e5 : free_bytes s1 =
          free_bytes (list_add_tail q (i - 1) (list_add h (i - 1) (list_del_init h s))) := by
        rw [free_bytes_eq, free_bytes_eq]
        simp only [hfa, list_add_tail_free_area, list_add_free_area, list_del_init_free_area]
        have : ∀ k : Int, (if k = i - 1 then h :: (s.free_area k).erase h ++ [q]
            else (s.free_area k).erase h) =
            (if k = i - 1 then (if k = i - 1 then h :: (s.free_area k).erase h
              else (s.free_area k).erase h) ++ [q]
            else if k = i - 1 then h :: (s.free_area k).erase h
              else (s.free_area k).erase h) := by
          intro k
          split <;> rfl
        simp only [this]
      omega
    rw [hb]
    exact hinv.bytes

/-! ## Allocation preserves the invariant -/

/-- What a call of `buddy_alloc` that has a result does in a state satisfying the invariant. -/
theorem alloc_fuel_spec {size : Int} {out : List Grant} :
    ∀ (n : Nat) (s : State), Inv s out → ∀ (r : Option Nat) (s1 : State),
      buddy_alloc_fuel n size s = some (r, s1) →
      (r = none → s1 = s ∧ first_fit size s = none) ∧
      (∀ a, r = some a → ∃ p i, p < n_pages ∧ a = PAGE_TO_ADDR p ∧ i ∈ orders ∧
        (s1.g_pages p).order = i ∧ Inv s1 ((a, i) :: out) ∧ size ≤ (shl1 i : Int) ∧
        (i = MIN_ORDER ∨ (shl1 i : Int) < 2 * size)) := by
  intro n
  induction n with
  | zero => intro s _ r s1 h; simp [buddy_alloc_fuel] at h
  | succ n ih =>
    intro s hinv r s1 h
    unfold buddy_alloc_fuel at h
    split at h
    · rename_i hff
      simp only [Option.some.injEq, Prod.mk.injEq] at h
      obtain ⟨h1, h2⟩ := h
      subst h1 h2
      exact ⟨fun _ => ⟨rfl, hff⟩, fun a ha => by simp at ha⟩
    · rename_i i hff
      obtain ⟨hi, hne, hsz, _⟩ := first_fit_some hff
      split at h
      · rename_i hc
        split at h
        · simp at h
        · rename_i s2 hsp
          have hfh : ∃ hd, find_head i s = some hd := by
            unfold split at hsp
            cases hfe : find_head i s with
            | none => rw [hfe] at hsp; simp at hsp
            | some hd => exact ⟨hd, rfl⟩
          obtain ⟨hd, hfh⟩ := hfh
          have hs2 := split_of_head hinv hi hfh
          rw [hsp] at hs2
          simp only [Option.some.injEq] at hs2
          have hinv2 : Inv s2 out := by
            rw [hs2]
            exact Inv_split hinv hi hc.1 hfh
          have := ih s2 hinv2 r s1 h
          refine ⟨?_, this.2⟩
          intro hr
          exfalso
          -- after a split the list one order below is not empty, so the search succeeds
          have hnone := (this.1 hr).2
          have hi1 : i - 1 ∈ orders := by
            have := mem_orders.1 hi
            exact mem_orders.2 ⟨by have := hc.1; omega, by omega⟩
          apply first_fit_none hnone (i - 1) hi1
          constructor
          · rw [hs2]
            simp [list_move]
          · have e4 : shl1 i = 2 * shl1 (i - 1) := by
              have := shl1_succ (o := i - 1)
                (by have := mem_orders.1 hi; simp only [MIN_ORDER] at this; omega)
              rwa [sub_add_cancel] at this
            have := hc.2
            omega
      · rename_i hc
        split at h
        · simp at h
        · rename_i hd hfh
          simp only [Option.some.injEq, Prod.mk.injEq] at h
          obtain ⟨h1, h2⟩ := h
          subst h1 h2
          obtain ⟨hlt, _⟩ := find_head_some hfh
          refine ⟨fun hr => by simp at hr, ?_⟩
          intro a ha
          simp only [Option.some.injEq] at ha
          subst ha
          have hmem : hd ∈ s.free_area i := by
            obtain ⟨_, t, ht⟩ := find_head_some hfh
            rw [ht]; exact List.mem_cons_self _ _
          refine ⟨hd, i, hlt, by rw [hinv.page_idx hd hlt], hi, ?_, ?_, hsz, ?_⟩
          · simpa using hinv.order_eq hd i (tracked_of_free hi hmem)
          · rw [hinv.page_idx hd hlt]
            exact Inv_take hinv hi hfh
          · by_cases hm : i = MIN_ORDER
            · exact Or.inl hm
            · right
              by_contra hlt2
              exact hc ⟨hm, by omega⟩

theorem alloc_spec {size : Int} {out : List Grant} {s : State} (hinv : Inv s out)
    {r : Option Nat} {s1 : State} (h : buddy_alloc size s = some (r, s1)) :
    (r = none → s1 = s ∧ first_fit size s = none) ∧
    (∀ a, r = some a → ∃ p i, p < n_pages ∧ a = PAGE_TO_ADDR p ∧ i ∈ orders ∧
      (s1.g_pages p).order = i ∧ Inv s1 ((a, i) :: out) ∧ size ≤ (shl1 i : Int) ∧
      (i = MIN_ORDER ∨ (shl1 i : Int) < 2 * size)) :=
  alloc_fuel_spec _ s hinv r s1 h

/-- Every reachable state satisfies the invariant. -/
theorem Reach.inv {s : State} {out : List Grant} (h : Reach s out) : Inv s out := by
  induction h with
  | init s0 => exact Inv_init s0
  | alloc _ ha ih =>
    obtain ⟨p, i, _, hap, _, hord, hinv, _⟩ := (alloc_spec ih ha).2 _ rfl
    rw [hap, addr_to_page_to_addr, hord, ← hap]
    exact hinv
  | alloc_fail _ ha ih =>
    rw [((alloc_spec ih ha).1 rfl).1]
    exact ih
  | free _ hmem hf ih =>
    rw [buddy_free_out ih hmem] at hf
    simp only [Option.some.injEq] at hf
    rw [← hf]
    exact Inv_free ih hmem

/-! ## Concrete runs -/

theorem state1_free_area :
    orders.map state1.free_area = [[2], [4], [8], [16], [32], [64], [128], [256], []] := by
  decide

theorem reach_state1 : Reach state1 [(0, 12)] :=
  @Reach.alloc _ _ 4096 _ _ (Reach.init zero_state) rfl

theorem reach_state2 : Reach state2 [(8192, 12), (0, 12)] :=
  @Reach.alloc _ _ 4096 _ _ reach_state1 rfl

theorem tracked_state1 {p : Nat} {o : Int} (h : tracked state1 [(0, 12)] p o) :
    (p = 0 ∧ o = 12) ∨ 2 ≤ p := by
  have hfa := state1_free_area
  simp only [orders_eq, List.map_cons, List.map_nil, List.cons.injEq, and_true] at hfa
  obtain ⟨h12, h13, h14, h15, h16, h17, h18, h19, h20⟩ := hfa
  rcases h with ⟨ho, hp⟩ | h
  · simp only [orders_eq, List.mem_cons, List.mem_singleton, List.not_mem_nil, or_false] at ho
    rcases ho with rfl | rfl | rfl | rfl | rfl | rfl | rfl | rfl | rfl
    · rw [h12] at hp; simp at hp; omega
    · rw [h13] at hp; simp at hp; omega
    · rw [h14] at hp; simp at hp; omega
    · rw [h15] at hp; simp at hp; omega
    · rw [h16] at hp; simp at hp; omega
    · rw [h17] at hp; simp at hp; omega
    · rw [h18] at hp; simp at hp; omega
    · rw [h19] at hp; simp at hp; omega
    · rw [h20] at hp; simp at hp
  · simp only [List.mem_singleton, Prod.mk.injEq, PAGE_TO_ADDR, PAGE_SIZE_eq] at h
    omega

/-! ## Claims C1 to C5 -/

/-- C1 (partition invariant), evaluated on the code: after `buddy_init(); buddy_alloc(4096)`
the call has returned offset 0, the state is reachable with one outstanding block, yet no
tracked block covers page 1 and the free block linked in `free_area[19]` starts at slot 256,
outside the arena, so the tracked blocks do not partition the arena. -/
theorem partition_broken_after_first_alloc :
    buddy_alloc 4096 state0 = some (some 0, state1) ∧ Reach state1 [(0, 12)] ∧
    (∀ p o, tracked state1 [(0, 12)] p o → ¬ covers p o 1) ∧
    (tracked state1 [(0, 12)] 256 19 ∧ ¬ (256 + shl1 (19 - MIN_ORDER) ≤ n_pages)) ∧
    ¬ Partition state1 [(0, 12)] := by
  have hcov : ∀ p o, tracked state1 [(0, 12)] p o → ¬ covers p o 1 := by
    intro p o h hc
    have h1 : p ≤ 1 := hc.1
    have h2 := hc.2
    rcases tracked_state1 h with hzero | htwo
    · rw [hzero.1, hzero.2] at h2
      exact absurd h2 (by decide)
    · omega
  refine ⟨rfl, reach_state1, hcov, ⟨?_, by decide⟩, ?_⟩
  · refine Or.inl ⟨by decide, ?_⟩
    have hfa := state1_free_area
    simp only [orders_eq, List.map_cons, List.map_nil, List.cons.injEq, and_true] at hfa
    rw [hfa.2.2.2.2.2.2.2.1]
    exact List.mem_singleton.2 rfl
  · intro hpart
    obtain ⟨p, o, htr, hc, _⟩ := hpart.1 1 (by decide)
    exact hcov p o htr hc

/-- C2 (conservation): in every reachable state the free bytes that `buddy_dump` reports
(count times block size, summed over the orders) plus the bytes of the outstanding
allocations (two to the granted order each) equal `2^MAX_ORDER`. -/
theorem conservation {s : State} {out : List Grant} (h : Reach s out) :
    free_bytes s + out_bytes out = 2 ^ MAX_ORDER.toNat := by
  rw [← shl1_eq]
  exact h.inv.bytes

/-- C2, instance: the state after two `buddy_alloc(4096)` calls. -/
theorem conservation_witness :
    Reach state2 [(8192, 12), (0, 12)] ∧
    free_bytes state2 + out_bytes [(8192, 12), (0, 12)] = 2 ^ MAX_ORDER.toNat :=
  ⟨reach_state2, conservation reach_state2⟩

/-- C3 (outstanding allocations never overlap): in every reachable state the outstanding
allocations have pairwise different addresses, and the byte ranges
`[a1, a1 + 2^o1)` and `[a2, a2 + 2^o2)` of two of them are disjoint. -/
theorem outstanding_disjoint {s : State} {out : List Grant} (h : Reach s out) :
    (out.map Prod.fst).Nodup ∧
    ∀ a ∈ out, ∀ b ∈ out, a ≠ b → a.1 + shl1 a.2 ≤ b.1 ∨ b.1 + shl1 b.2 ≤ a.1 := by
  have hinv := h.inv
  refine ⟨hinv.nodup_out, ?_⟩
  intro a ha b hb hne
  obtain ⟨p, _, hap⟩ := hinv.out_page a ha
  obtain ⟨q, _, hbq⟩ := hinv.out_page b hb
  have hta : tracked s out p a.2 := by
    apply tracked_of_out; rw [← hap]; exact ha
  have htb : tracked s out q b.2 := by
    apply tracked_of_out; rw [← hbq]; exact hb
  have hpq : p ≠ q := by
    intro e
    apply hne
    refine List.inj_on_of_nodup_map hinv.nodup_out ha hb ?_
    rw [hap, hbq, e]
  have hra := (mem_orders.1 (hinv.range p a.2 hta)).1
  have hrb := (mem_orders.1 (hinv.range q b.2 htb)).1
  have hca := claim_eq hra
  have hcb := claim_eq hrb
  have hsa := shl1_add_min hra
  have hsb := shl1_add_min hrb
  rw [hap, hbq, hsa, hsb]
  simp only [PAGE_TO_ADDR]
  rcases hinv.disj p a.2 q b.2 hta htb hpq with h1 | h1
  · left
    rw [← Nat.add_mul]
    exact Nat.mul_le_mul_right _ (by omega)
  · right
    rw [← Nat.add_mul]
    exact Nat.mul_le_mul_right _ (by omega)

/-- C3, instance: the two blocks outstanding after two `buddy_alloc(4096)` calls. -/
theorem outstanding_disjoint_witness :
    Reach state2 [(8192, 12), (0, 12)] ∧
    (8192 + shl1 12 ≤ 0 ∨ 0 + shl1 12 ≤ 8192) :=
  ⟨reach_state2,
    (outstanding_disjoint reach_state2).2 (8192, 12) (by simp) (0, 12) (by simp) (by decide)⟩

/-- C4 (round trip), evaluated on the code: from the initial state `buddy_alloc(4096)`
returns offset 0 and `buddy_free` of it right away leaves two entries in `free_area[12]`,
one entry in each of `free_area[13..19]` and none in `free_area[20]`, where before the
allocation `free_area[20]` had one entry and the other lists none. -/
theorem round_trip_broken :
    buddy_alloc 4096 state0 = some (some 0, state1) ∧
    (buddy_free 0 state1).map buddy_dump =
      some [(2, 4), (1, 8), (1, 16), (1, 32), (1, 64), (1, 128), (1, 256), (1, 512),
        (0, 1024)] ∧
    buddy_dump state0 =
      [(0, 4), (0, 8), (0, 16), (0, 32), (0, 64), (0, 128), (0, 256), (0, 512), (1, 1024)] :=
  ⟨rfl, by decide, by decide⟩

/-- C5 (worked example), evaluated on the code: after `buddy_init` the first
`buddy_alloc(4096)` returns offset 0, the arena base, and the second one returns offset
8192, page 2, not `base+4096`. -/
theorem second_alloc_returns_page_two :
    buddy_alloc 4096 state0 = some (some 0, state1) ∧
    buddy_alloc 4096 state1 = some (some 8192, state2) ∧
    (8192 : Nat) = PAGE_TO_ADDR 2 ∧ (8192 : Nat) ≠ 0 + 4096 :=
  ⟨rfl, rfl, by decide, by decide⟩

/-! ## The search of `buddy_alloc` in an arbitrary state -/

theorem first_fit_eq_none {size : Int} {s : State}
    (h : ∀ k ∈ orders, ¬ (s.free_area k ≠ [] ∧ size ≤ (shl1 k : Int))) :
    first_fit size s = none := by
  cases hff : first_fit size s with
  | none => rfl
  | some i =>
    obtain ⟨hi, h1, h2, _⟩ := first_fit_some hff
    exact absurd ⟨h1, h2⟩ (h i hi)

theorem first_fit_eq_some {size : Int} {s : State} {j : Int} (hj : j ∈ orders)
    (h1 : s.free_area j ≠ []) (h2 : size ≤ (shl1 j : Int))
    (h3 : ∀ k ∈ orders, k < j → ¬ (s.free_area k ≠ [] ∧ size ≤ (shl1 k : Int))) :
    first_fit size s = some j := by
  cases hff : first_fit size s with
  | none => exact absurd ⟨h1, h2⟩ (first_fit_none hff j hj)
  | some i =>
    obtain ⟨hi, g1, g2, g3⟩ := first_fit_some hff
    rcases lt_trichotomy i j with hlt | heq | hgt
    · exact absurd ⟨g1, g2⟩ (h3 i hi hlt)
    · rw [heq]
    · exact absurd ⟨h1, h2⟩ (g3 j hj hgt)

theorem split_shape {i : Int} {s s2 : State} (h : split i s = some s2) :
    ∃ hd q, find_head i s = some hd ∧ ∀ k, s2.free_area k =
      if k = i - 1 then hd :: (s.free_area k).erase hd ++ [q] else (s.free_area k).erase hd := by
  unfold split at h
  cases hfe : find_head i s with
  | none => rw [hfe] at h; simp at h
  | some hd =>
    rw [hfe] at h
    simp only [Option.some.injEq] at h
    refine ⟨hd, ADDR_TO_PAGE (BUDDY_ADDR (PAGE_TO_ADDR (s.g_pages hd).page_idx) i), rfl, ?_⟩
    intro k
    rw [← h]
    simp only [set_order_free_area, list_add_tail_free_area, list_move, list_add_free_area,
      list_del_init_free_area]
    split <;> rfl

theorem shl1_pred {i : Int} (h : 0 < i) : shl1 i = 2 * shl1 (i - 1) := by
  have := shl1_succ (o := i - 1) (by omega)
  rwa [sub_add_cancel] at this

/-- After `split(i)` on the first fitting order `i`, with room to halve, the search stops
one order below. -/
theorem first_fit_after_split {size : Int} {s s2 : State} {i : Int}
    (hff : first_fit size s = some i) (hne : i ≠ MIN_ORDER)
    (hroom : 2 * size ≤ (shl1 i : Int)) (hsp : split i s = some s2) :
    first_fit size s2 = some (i - 1) := by
  obtain ⟨hi, _, _, hfirst⟩ := first_fit_some hff
  obtain ⟨hd, q, _, hfa⟩ := split_shape hsp
  have hr := mem_orders.1 hi
  have hi1 : i - 1 ∈ orders := mem_orders.2 ⟨by omega, by omega⟩
  apply first_fit_eq_some hi1
  · rw [hfa, if_pos rfl]
    simp
  · have := shl1_pred (i := i) (by simp only [MIN_ORDER] at hr; omega)
    omega
  · intro k hk hlt hP
    rw [hfa, if_neg (by omega)] at hP
    apply hfirst k hk (by omega)
    refine ⟨?_, hP.2⟩
    intro hnil
    apply hP.1
    rw [hnil]
    rfl

/-- A `NULL` result comes from a search that finds no order, and leaves the state alone. -/
theorem alloc_fuel_null {size : Int} :
    ∀ (n : Nat) (s s1 : State), buddy_alloc_fuel n size s = some (none, s1) →
      s1 = s ∧ first_fit size s = none := by
  intro n
  induction n with
  | zero => intro s s1 h; simp [buddy_alloc_fuel] at h
  | succ n ih =>
    intro s s1 h
    unfold buddy_alloc_fuel at h
    split at h
    · rename_i hff
      simp only [Option.some.injEq, Prod.mk.injEq, true_and] at h
      exact ⟨h.symm, hff⟩
    · rename_i i hff
      split at h
      · rename_i hc
        split at h
        · simp at h
        · rename_i s2 hsp
          have h1 := (ih s2 s1 h).2
          rw [first_fit_after_split hff hc.1 hc.2 hsp] at h1
          simp at h1
      · split at h
        · simp at h
        · simp at h

theorem alloc_of_first_fit_none {size : Int} {s : State} (h : first_fit size s = none) :
    buddy_alloc size s = some (none, s) := by
  unfold buddy_alloc
  rw [fuel_eq]
  unfold buddy_alloc_fuel
  rw [h]

/-! ## The required order -/

theorem find_order_cons (size : Int) (o : Int) (v : Int) (l : List Int)
    (hv : ((shl1 o : Nat) : Int) = v) :
    (o :: l).find? (fun o => decide (size ≤ (shl1 o : Int))) =
      if size ≤ v then some o else l.find? (fun o => decide (size ≤ (shl1 o : Int))) := by
  by_cases h : size ≤ v
  · rw [if_pos h, List.find?_cons_of_pos]
    simpa [hv] using h
  · rw [if_neg h, List.find?_cons_of_neg]
    simpa [hv] using h

theorem required_order_eq (size : Int) :
    required_order size =
      if size ≤ 4096 then 12 else if size ≤ 8192 then 13 else if size ≤ 16384 then 14
      else if size ≤ 32768 then 15 else if size ≤ 65536 then 16
      else if size ≤ 131072 then 17 else if size ≤ 262144 then 18
      else if size ≤ 524288 then 19 else if size ≤ 1048576 then 20 else 21 := by
  have e : ∀ (o : Int) (v : Nat), shl1 o = v → ((shl1 o : Nat) : Int) = (v : Int) :=
    fun o v h => by rw [h]
  unfold required_order
  rw [orders_eq, find_order_cons size 12 4096 _ (e 12 4096 rfl),
    find_order_cons size 13 8192 _ (e 13 8192 rfl),
    find_order_cons size 14 16384 _ (e 14 16384 rfl),
    find_order_cons size 15 32768 _ (e 15 32768 rfl),
    find_order_cons size 16 65536 _ (e 16 65536 rfl),
    find_order_cons size 17 131072 _ (e 17 131072 rfl),
    find_order_cons size 18 262144 _ (e 18 262144 rfl),
    find_order_cons size 19 524288 _ (e 19 524288 rfl),
    find_order_cons size 20 1048576 _ (e 20 1048576 rfl), List.find?_nil]
  repeat' split
  all_goals rfl

theorem required_order_cases (size : Int) :
    (size ≤ 4096 ∧ required_order size = 12) ∨
    (4096 < size ∧ size ≤ 8192 ∧ required_order size = 13) ∨
    (8192 < size ∧ size ≤ 16384 ∧ required_order size = 14) ∨
    (16384 < size ∧ size ≤ 32768 ∧ required_order size = 15) ∨
    (32768 < size ∧ size ≤ 65536 ∧ required_order size = 16) ∨
    (65536 < size ∧ size ≤ 131072 ∧ required_order size = 17) ∨
    (131072 < size ∧ size ≤ 262144 ∧ required_order size = 18) ∨
    (262144 < size ∧ size ≤ 524288 ∧ required_order size = 19) ∨
    (524288 < size ∧ size ≤ 1048576 ∧ required_order size = 20) ∨
    (1048576 < size ∧ required_order size = 21) := by
  rw [required_order_eq]
  by_cases h12 : size ≤ 4096
  · left; exact ⟨h12, if_pos h12⟩
  right
  rw [if_neg h12]
  by_cases h13 : size ≤ 8192
  · left; exact ⟨by omega, h13, if_pos h13⟩
  right
  rw [if_neg h13]
  by_cases h14 : size ≤ 16384
  · left; exact ⟨by omega, h14, if_pos h14⟩
  right
  rw [if_neg h14]
  by_cases h15 : size ≤ 32768
  · left; exact ⟨by omega, h15, if_pos h15⟩
  right
  rw [if_neg h15]
  by_cases h16 : size ≤ 65536
  · left; exact ⟨by omega, h16, if_pos h16⟩
  right
  rw [if_neg h16]
  by_cases h17 : size ≤ 131072
  · left; exact ⟨by omega, h17, if_pos h17⟩
  right
  rw [if_neg h17]
  by_cases h18 : size ≤ 262144
  · left; exact ⟨by omega, h18, if_pos h18⟩
  right
  rw [if_neg h18]
  by_cases h19 : size ≤ 524288
  · left; exact ⟨by omega, h19, if_pos h19⟩
  right
  rw [if_neg h19]
  by_cases h20 : size ≤ 1048576
  · left; exact ⟨by omega, h20, if_pos h20⟩
  right
  rw [if_neg h20]
  exact ⟨by omega, rfl⟩

theorem required_order_le {size : Int} {i : Int} (hi : i ∈ orders) :
    required_order size ≤ i ↔ size ≤ (shl1 i : Int) := by
  have hc := required_order_cases size
  rcases shl1_cases hi with ⟨h, hs⟩ | ⟨h, hs⟩ | ⟨h, hs⟩ | ⟨h, hs⟩ | ⟨h, hs⟩ | ⟨h, hs⟩ |
    ⟨h, hs⟩ | ⟨h, hs⟩ | ⟨h, hs⟩ <;> subst h <;> rw [hs] <;> omega

/-! ## Claims C7 to C10 -/

/-- C7 (granted order is the required order): in every reachable state, when
`buddy_alloc(size)` succeeds, the order recorded in the descriptor of the returned block
is the required order; for `0 < size ≤ 2^MAX_ORDER` that is the smallest `o ≥ MIN_ORDER`
with `2^o ≥ size`, so no smaller sufficient order exists at all. -/
theorem granted_order_is_required {s : State} {out : List Grant} (h : Reach s out)
    {size : Int} {a : Nat} {s1 : State} (_hpos : 0 < size)
    (_hle : size ≤ 2 ^ MAX_ORDER.toNat) (ha : buddy_alloc size s = some (some a, s1)) :
    (s1.g_pages (ADDR_TO_PAGE a)).order = required_order size ∧
    MIN_ORDER ≤ required_order size ∧ size ≤ (shl1 (required_order size) : Int) ∧
    ∀ o, MIN_ORDER ≤ o → size ≤ (shl1 o : Int) → required_order size ≤ o := by
  obtain ⟨p, i, _, hap, hi, hord, _, hsz, hmin⟩ := (alloc_spec h.inv ha).2 a rfl
  have hr := mem_orders.1 hi
  have hreq : required_order size = i := by
    have h1 := (@required_order_le size i hi).2 hsz
    rcases hmin with hm | hm
    · have := required_order_cases size
      simp only [MIN_ORDER] at hm
      omega
    · by_contra hne
      have hlt : required_order size < i := lt_of_le_of_ne h1 hne
      have hc := required_order_cases size
      have hi1 : i - 1 ∈ orders := mem_orders.2 ⟨by
        simp only [MIN_ORDER] at *; omega, by omega⟩
      have h2 := (@required_order_le size (i - 1) hi1).1 (by omega)
      have h3 := shl1_pred (i := i) (by simp only [MIN_ORDER] at hr; omega)
      omega
  refine ⟨by rw [hap, addr_to_page_to_addr, hord, hreq], by rw [hreq]; exact hr.1,
    by rw [hreq]; exact hsz, ?_⟩
  intro o ho hso
  by_cases hom : o ≤ MAX_ORDER
  · exact (required_order_le (mem_orders.2 ⟨ho, hom⟩)).2 hso
  · rw [hreq]; omega

/-- C7, instance: the first `buddy_alloc(4096)` after `buddy_init`. -/
theorem granted_order_is_required_witness :
    Reach state0 [] ∧ (0 : Int) < 4096 ∧ (4096 : Int) ≤ 2 ^ MAX_ORDER.toNat ∧
    buddy_alloc 4096 state0 = some (some 0, state1) ∧
    (state1.g_pages (ADDR_TO_PAGE 0)).order = required_order 4096 :=
  ⟨Reach.init zero_state, by decide, by decide, rfl,
    (@granted_order_is_required state0 [] (Reach.init zero_state) 4096 0 state1 (by decide)
      (by decide) rfl).1⟩

/-- When the search stops at a list whose first entry is a descriptor of the table,
`buddy_alloc` returns an address. -/
theorem alloc_fuel_total {size : Int} :
    ∀ (n : Nat) (s : State) (i : Int), first_fit size s = some i →
      (∃ hd, find_head i s = some hd) → i - MIN_ORDER < n →
      ∃ a s1, buddy_alloc_fuel n size s = some (some a, s1) := by
  intro n
  induction n with
  | zero =>
    intro s i hff _ hlt
    have := (mem_orders.1 (first_fit_some hff).1).1
    omega
  | succ k ih =>
    intro s i hff hfh hlt
    obtain ⟨hd, hfh⟩ := hfh
    have hr := mem_orders.1 (first_fit_some hff).1
    unfold buddy_alloc_fuel
    rw [hff]
    simp only
    by_cases hc : i ≠ MIN_ORDER ∧ 2 * size ≤ (shl1 i : Int)
    · rw [if_pos hc]
      cases hsp : split i s with
      | none =>
        unfold split at hsp
        rw [hfh] at hsp
        simp at hsp
      | some s2 =>
        simp only
        have hne := hc.1
        obtain ⟨hd2, q, hfh2, hfa⟩ := split_shape hsp
        refine ih s2 (i - 1) (first_fit_after_split hff hc.1 hc.2 hsp) ⟨hd2, ?_⟩ (by omega)
        unfold find_head
        rw [hfa (i - 1), if_pos rfl]
        simp only [List.cons_append]
        rw [if_pos (find_head_some hfh2).1]
    · rw [if_neg hc, hfh]
      exact ⟨_, _, rfl⟩

/-- C8 (failure exactly on exhaustion): in every state and for every size, in particular in
a state satisfying the free-list/order invariant and for `0 < size ≤ 2^MAX_ORDER`,
`buddy_alloc(size)` returns `NULL` if and only if `free_area[i]` is empty for every order
`i` from the required order up to `MAX_ORDER`, and a call that returns `NULL` leaves the
state unchanged.  The call does return, `NULL` or an address, when the entries of the free
lists are descriptors of the table. -/
theorem alloc_null_iff_exhausted (s : State) (size : Int) :
    ((∃ s1, buddy_alloc size s = some (none, s1)) ↔
      ∀ i, required_order size ≤ i → i ≤ MAX_ORDER → s.free_area i = []) ∧
    (∀ s1, buddy_alloc size s = some (none, s1) → s1 = s) ∧
    ((∀ o ∈ orders, ∀ p ∈ s.free_area o, p < n_pages) →
      ∃ r s1, buddy_alloc size s = some (r, s1)) := by
  have hreq : MIN_ORDER ≤ required_order size := by
    have := required_order_cases size
    simp only [MIN_ORDER]
    omega
  refine ⟨⟨?_, ?_⟩, fun s1 h => (alloc_fuel_null _ s s1 h).1, ?_⟩
  · rintro ⟨s1, h⟩ i hi1 hi2
    have hnone := (alloc_fuel_null _ s s1 h).2
    have hi : i ∈ orders := mem_orders.2 ⟨by omega, hi2⟩
    by_contra hne
    exact first_fit_none hnone i hi ⟨hne, (required_order_le hi).1 hi1⟩
  · intro h
    refine ⟨s, alloc_of_first_fit_none (first_fit_eq_none ?_)⟩
    intro k hk hP
    exact hP.1 (h k ((required_order_le hk).2 hP.2) (mem_orders.1 hk).2)
  · intro htab
    cases hff : first_fit size s with
    | none => exact ⟨none, s, alloc_of_first_fit_none hff⟩
    | some i =>
      obtain ⟨hi, hne, _, _⟩ := first_fit_some hff
      have hr := mem_orders.1 hi
      obtain ⟨hd, hmem⟩ := List.exists_mem_of_ne_nil _ hne
      have hfh : ∃ hd, find_head i s = some hd := by
        unfold find_head
        cases hl : s.free_area i with
        | nil => exact absurd hl hne
        | cons x t =>
          simp only
          rw [if_pos (htab i hi x (by rw [hl]; exact List.mem_cons_self _ _))]
          exact ⟨x, rfl⟩
      obtain ⟨a, s1, h1⟩ := alloc_fuel_total (8 + 1) s i hff hfh
        (by simp only [MIN_ORDER, MAX_ORDER] at *; omega)
      refine ⟨some a, s1, ?_⟩
      unfold buddy_alloc
      rw [fuel_eq]
      exact h1

/-- C9 as stated fails for `size ≤ 0`: in a state whose only free block is page 0 of order
`MIN_ORDER`, `buddy_alloc(0)` and `buddy_alloc(-4096)` return offset 0 and unlink the page;
in the initial state `buddy_alloc(0)` splits the arena down to one page and returns offset 0,
exactly as `buddy_alloc(4096)` does. -/
theorem nonpositive_size_is_served :
    buddy_alloc 0 state_one_page = some (some 0, list_del_init 0 state_one_page) ∧
    buddy_alloc (-4096) state_one_page = some (some 0, list_del_init 0 state_one_page) ∧
    state_one_page.free_area MIN_ORDER = [0] ∧
    (list_del_init 0 state_one_page).free_area MIN_ORDER = [] ∧
    buddy_alloc 0 state0 = some (some 0, state1) :=
  ⟨rfl, rfl, rfl, rfl, rfl⟩

/-- C9 (amended): in every state `buddy_alloc(size)` with `size > 2^MAX_ORDER` returns `NULL`
and changes neither the descriptor table nor the free lists. -/
theorem oversized_request_rejected (s : State) (size : Int)
    (h : 2 ^ MAX_ORDER.toNat < size) : buddy_alloc size s = some (none, s) := by
  apply alloc_of_first_fit_none
  apply first_fit_eq_none
  intro k hk hP
  have h1 : shl1 k ≤ shl1 MAX_ORDER := shl1_mono (mem_orders.1 hk).2
  have h2 : ((shl1 MAX_ORDER : Nat) : Int) = 2 ^ MAX_ORDER.toNat := by
    rw [shl1_eq]; norm_cast
  have := hP.2
  omega

/-- C9 (amended), instance: a request of `2^MAX_ORDER + 1` bytes in the initial state. -/
theorem oversized_request_rejected_witness :
    (2 : Int) ^ MAX_ORDER.toNat < 1048577 ∧ buddy_alloc 1048577 state0 = some (none, state0) :=
  ⟨by decide, oversized_request_rejected state0 1048577 (by decide)⟩

/-- C10 (exhaustion): in every reachable state in which `buddy_alloc(2^MAX_ORDER)` succeeds,
every free list of order `MIN_ORDER..MAX_ORDER` is empty after the call, and every
following sequence of `buddy_alloc` calls, of any sizes, returns `NULL` each time and
leaves that state unchanged. -/
theorem exhausted_after_full_alloc {s : State} {out : List Grant} (h : Reach s out)
    {a : Nat} {s1 : State}
    (ha : buddy_alloc (2 ^ MAX_ORDER.toNat) s = some (some a, s1)) :
    (∀ o ∈ orders, s1.free_area o = []) ∧
    ∀ sizes : List Int, alloc_seq sizes s1 = some (sizes.map (fun _ => none), s1) := by
  obtain ⟨p, i, _, hap, hi, _, hinv, hsz, _⟩ := (alloc_spec h.inv ha).2 a rfl
  have hi20 : i = MAX_ORDER := by
    have hc := (@required_order_le (2 ^ MAX_ORDER.toNat) i hi).2 hsz
    have hr := required_order_cases (2 ^ MAX_ORDER.toNat)
    have e : (2 : Int) ^ MAX_ORDER.toNat = 1048576 := by decide
    rw [e] at hr hc
    have := (mem_orders.1 hi).2
    simp only [MAX_ORDER] at *
    omega
  subst hi20
  have htp : tracked s1 ((a, MAX_ORDER) :: out) p MAX_ORDER := by
    apply tracked_of_out
    rw [← hap]
    exact List.mem_cons_self _ _
  have hal := hinv.align p MAX_ORDER htp
  rw [claim_max] at hal
  have hempty : ∀ o ∈ orders, s1.free_area o = [] := by
    intro o ho
    by_contra hne
    obtain ⟨q, hq⟩ := List.exists_mem_of_ne_nil _ hne
    have htq : tracked s1 ((a, MAX_ORDER) :: out) q o := tracked_of_free ho hq
    have hpos := claim_pos o
    have halq := hinv.align q o htq
    by_cases hqp : q = p
    · apply hinv.excl o ho q hq
      rw [hqp, ← hap]
      exact List.mem_cons_self _ _
    · rcases hinv.disj p MAX_ORDER q o htp htq (fun e => hqp e.symm) with h1 | h1
      · rw [claim_max] at h1; omega
      · omega
  refine ⟨hempty, ?_⟩
  have hnull : ∀ size, buddy_alloc size s1 = some (none, s1) := by
    intro size
    apply alloc_of_first_fit_none
    apply first_fit_eq_none
    intro k hk hP
    exact hP.1 (hempty k hk)
  intro sizes
  induction sizes with
  | nil => rfl
  | cons x t ih =>
    simp only [alloc_seq, hnull x, ih, List.map_cons]

/-- C10, instance: `buddy_alloc(2^MAX_ORDER)` in the initial state, then three more calls. -/
theorem exhausted_after_full_alloc_witness :
    Reach state0 [] ∧ buddy_alloc (2 ^ MAX_ORDER.toNat) state0 = some (some 0, state_full) ∧
    alloc_seq [1, 4096, 1048576] state_full = some ([none, none, none], state_full) :=
  ⟨Reach.init zero_state, rfl,
    (@exhausted_after_full_alloc state0 [] (Reach.init zero_state) 0 state_full rfl).2
      [1, 4096, 1048576]⟩

/-! ## The buddy of a block -/

theorem mul_pow_xor (p k n : Nat) : (p * 2 ^ n) ^^^ 2 ^ (k + n) = (p ^^^ 2 ^ k) * 2 ^ n := by
  apply Nat.eq_of_testBit_eq
  intro j
  rw [Nat.mul_comm p, Nat.mul_comm (p ^^^ 2 ^ k), Nat.testBit_xor, Nat.testBit_mul_pow_two,
    Nat.testBit_mul_pow_two, Nat.testBit_xor, Nat.testBit_two_pow, Nat.testBit_two_pow]
  by_cases hj : j ≥ n
  · by_cases hk : k + n = j
    · have : k = j - n := by omega
      simp [hj, hk, this]
    · have : ¬ (k = j - n) := by omega
      simp [hj, hk, this]
  · have : ¬ (k + n = j) := by omega
    simp [hj, this]

/-- The page index that the macros compute for the buddy of the block of order `o` at page
`p` is `p XOR 2^(o-MIN_ORDER)`. -/
theorem buddy_page_xor (p : Nat) {o : Int} (ho : MIN_ORDER ≤ o) :
    ADDR_TO_PAGE (BUDDY_ADDR (PAGE_TO_ADDR p) o) = p ^^^ shl1 (o - MIN_ORDER) := by
  obtain ⟨k, hk⟩ : ∃ k : Nat, o = MIN_ORDER + k := ⟨(o - MIN_ORDER).toNat, by omega⟩
  subst hk
  have e2 : (MIN_ORDER + (k : Int) - MIN_ORDER).toNat = k := by omega
  have e3 : (MIN_ORDER + (k : Int)).toNat = k + 12 := by simp [MIN_ORDER]; omega
  have e4 : MIN_ORDER.toNat = 12 := by decide
  simp only [shl1, Nat.shiftLeft_eq, one_mul, e2, e3, e4, ADDR_TO_PAGE, BUDDY_ADDR,
    PAGE_TO_ADDR, PAGE_SIZE]
  rw [mul_pow_xor, Nat.mul_div_cancel _ (by positivity)]

theorem xor_shl1_ne (p : Nat) (o : Int) : p ^^^ shl1 o ≠ p := by
  intro h
  have h1 : p ^^^ (p ^^^ shl1 o) = p ^^^ p := by rw [h]
  rw [Nat.xor_cancel_left, Nat.xor_self] at h1
  have := shl1_pos o
  omega


/-! ## Claim C6 -/

theorem list_empty_node_iff {n : Nat} {s : State} :
    list_empty_node n s = true ↔ ∀ k ∈ orders, n ∉ s.free_area k := by
  constructor
  · intro h k hk hmem
    have := list_empty_node_false hk hmem
    rw [h] at this
    exact absurd this (by decide)
  · exact list_empty_node_true

theorem alloc_fuel_indep {size : Int} :
    ∀ (n m : Nat) (s : State), 0 < n → 0 < m →
      (∀ i, first_fit size s = some i → i - MIN_ORDER < n ∧ i - MIN_ORDER < m) →
      buddy_alloc_fuel n size s = buddy_alloc_fuel m size s := by
  intro n
  induction n with
  | zero => intro m s h; omega
  | succ k ih =>
    intro m s _ hm hb
    obtain ⟨l, rfl⟩ : ∃ l, m = l + 1 := ⟨m - 1, by omega⟩
    unfold buddy_alloc_fuel
    cases hff : first_fit size s with
    | none => rfl
    | some i =>
      simp only
      have hi := (first_fit_some hff).1
      have hr := mem_orders.1 hi
      have hbi := hb i hff
      by_cases hc : i ≠ MIN_ORDER ∧ 2 * size ≤ (shl1 i : Int)
      · rw [if_pos hc, if_pos hc]
        cases hsp : split i s with
        | none => rfl
        | some s2 =>
          simp only
          have hff2 := first_fit_after_split hff hc.1 hc.2 hsp
          have hne := hc.1
          apply ih l s2 (by omega) (by omega)
          intro j hj
          rw [hff2] at hj
          simp only [Option.some.injEq] at hj
          omega
      · rw [if_neg hc, if_neg hc]

/-- The budget of `buddy_alloc` is never the reason for a missing result: any larger budget
gives the same outcome. -/
theorem buddy_alloc_fuel_stable (n : Nat) (hn : 9 ≤ n) (size : Int) (s : State) :
    buddy_alloc_fuel n size s = buddy_alloc size s := by
  unfold buddy_alloc
  rw [fuel_eq]
  apply alloc_fuel_indep n (8 + 1) s (by omega) (by omega)
  intro i hi
  have hr := mem_orders.1 (first_fit_some hi).1
  simp only [MIN_ORDER, MAX_ORDER] at *
  omega

/-! ## Claims C11, C13, C16 -/

/-- C11 (natural alignment): in every reachable state the address of every outstanding
allocation is a multiple of two to its granted order, its page index is a multiple of
`2^(order-MIN_ORDER)`, the first page of every block linked in a free list is a multiple of
`2^(order-MIN_ORDER)`, and an address that a successful `buddy_alloc` returns is a multiple
of two to the order recorded in its descriptor. -/
theorem natural_alignment {s : State} {out : List Grant} (h : Reach s out) :
    (∀ a ∈ out, shl1 a.2 ∣ a.1 ∧ shl1 (a.2 - MIN_ORDER) ∣ ADDR_TO_PAGE a.1) ∧
    (∀ o ∈ orders, ∀ p ∈ s.free_area o, shl1 (o - MIN_ORDER) ∣ p) ∧
    (∀ size a s1, buddy_alloc size s = some (some a, s1) →
      shl1 (s1.g_pages (ADDR_TO_PAGE a)).order ∣ a ∧
      shl1 ((s1.g_pages (ADDR_TO_PAGE a)).order - MIN_ORDER) ∣ ADDR_TO_PAGE a) := by
  have key : ∀ {s : State} {out : List Grant}, Reach s out →
      ∀ p o, tracked s out p o → shl1 (o - MIN_ORDER) ∣ p ∧ shl1 o ∣ PAGE_TO_ADDR p := by
    intro s out h p o hp
    have hinv := h.inv
    have hr := (mem_orders.1 (hinv.range p o hp)).1
    have hal := (hinv.align p o hp).1
    rw [claim_eq hr] at hal
    have h1 : shl1 (o - MIN_ORDER) ∣ p := Dvd.dvd.trans ⟨2, by omega⟩ hal
    refine ⟨h1, ?_⟩
    rw [shl1_add_min hr]
    exact Nat.mul_dvd_mul_right h1 _
  have hout : ∀ {s : State} {out : List Grant}, Reach s out →
      ∀ a ∈ out, shl1 a.2 ∣ a.1 ∧ shl1 (a.2 - MIN_ORDER) ∣ ADDR_TO_PAGE a.1 := by
    intro s out h a ha
    obtain ⟨p, _, hap⟩ := h.inv.out_page a ha
    have htr : tracked s out p a.2 := by
      apply tracked_of_out; rw [← hap]; exact ha
    have := key h p a.2 htr
    rw [hap, addr_to_page_to_addr]
    exact ⟨this.2, this.1⟩
  refine ⟨hout h, ?_, ?_⟩
  · intro o ho p hp
    exact (key h p o (tracked_of_free ho hp)).1
  · intro size a s1 ha
    exact hout (Reach.alloc h ha) _ (List.mem_cons_self _ _)

/-- C11, instance: the two blocks outstanding after two `buddy_alloc(4096)` calls. -/
theorem natural_alignment_witness :
    Reach state2 [(8192, 12), (0, 12)] ∧
    (shl1 12 ∣ 8192 ∧ shl1 (12 - MIN_ORDER) ∣ ADDR_TO_PAGE 8192) :=
  ⟨reach_state2, (natural_alignment reach_state2).1 (8192, 12) (by simp)⟩

/-- C13 (free-list/order invariant): in every reachable state every free list
`free_area[MIN_ORDER..MAX_ORDER]` holds each descriptor at most once, a descriptor linked in
`free_area[o]` has `order = o` and is linked in no other list; `split` on a reachable state
(for an order above `MIN_ORDER`) and `merge` on a tracked block of a reachable state keep
this, as do `buddy_init`, `buddy_alloc` and `buddy_free`, whose results are reachable. -/
theorem list_order_invariant {s : State} {out : List Grant} (h : Reach s out) :
    ListOrderInv s ∧
    (∀ o ∈ orders, ∀ k ∈ orders, ∀ p, p ∈ s.free_area o → p ∈ s.free_area k → o = k) ∧
    (∀ o ∈ orders, ∀ p ∈ s.free_area o, MIN_ORDER ≤ o ∧ o ≤ MAX_ORDER) ∧
    (∀ i ∈ orders, i ≠ MIN_ORDER → ∀ s2, split i s = some s2 → ListOrderInv s2) ∧
    (∀ p o, tracked s out p o → merge (PAGE_TO_ADDR p) s = some s) := by
  have hloi : ∀ {s : State} {out : List Grant}, Inv s out → ListOrderInv s := by
    intro s out hinv
    exact ⟨hinv.nodup_free, fun o ho p hp => hinv.order_eq p o (tracked_of_free ho hp)⟩
  have hinv := h.inv
  refine ⟨hloi hinv, ?_, ?_, ?_, ?_⟩
  · intro o ho k hk p hpo hpk
    by_contra hne
    exact not_mem_other_list hinv ho hpo hk (fun e => hne e.symm) hpk
  · intro o ho p _
    exact mem_orders.1 ho
  · intro i hi hne s2 hsp
    obtain ⟨hd, q, hfh, _⟩ := split_shape hsp
    have := split_of_head hinv hi hfh
    rw [hsp] at this
    simp only [Option.some.injEq] at this
    rw [this]
    exact hloi (Inv_split hinv hi hne hfh)
  · intro p o hp
    unfold merge merge_budget
    apply merge_fuel_stop
    rw [addr_to_page_to_addr, hinv.order_eq p o hp]
    by_cases hmax : o = MAX_ORDER
    · exact Or.inl hmax
    · right
      have hr := mem_orders.1 (hinv.range p o hp)
      rw [buddy_page_of_dvd hr.1 (hinv.align p o hp).1]
      apply list_empty_node_true
      intro k hk hmem
      exact buddy_untracked hinv hp k (tracked_of_free hk hmem)

/-- C13, instance: the state after two `buddy_alloc(4096)` calls. -/
theorem list_order_invariant_witness :
    Reach state2 [(8192, 12), (0, 12)] ∧ ListOrderInv state2 :=
  ⟨reach_state2, (list_order_invariant reach_state2).1⟩

/-- C16 (free without merge only re-links): when the block at page `p` has order `o`,
`MIN_ORDER ≤ o`, and `o = MAX_ORDER` or the descriptor at `p XOR 2^(o-MIN_ORDER)` is linked
in no free list, `buddy_free` of the address of `p` yields the state before the call with
`p` inserted at the head of `free_area[o]`: the other members of that list keep their
order, and no other free list and no descriptor changes. -/
theorem free_without_merge (s : State) (p : Nat) (o : Int)
    (ho : (s.g_pages p).order = o) (hmin : MIN_ORDER ≤ o)
    (h : o = MAX_ORDER ∨ list_empty_node (p ^^^ shl1 (o - MIN_ORDER)) s = true) :
    ∃ s1, buddy_free (PAGE_TO_ADDR p) s = some s1 ∧
      s1.free_area o = p :: s.free_area o ∧
      (∀ k, k ≠ o → s1.free_area k = s.free_area k) ∧
      s1.g_pages = s.g_pages := by
  refine ⟨list_add p o s, ?_, by simp, fun k hk => by simp [hk], rfl⟩
  unfold buddy_free merge merge_budget
  simp only [addr_to_page_to_addr, ho]
  apply merge_fuel_stop
  simp only [list_add_g_pages, addr_to_page_to_addr, ho]
  rcases h with h | h
  · exact Or.inl h
  · right
    rw [buddy_page_xor p hmin]
    apply list_empty_node_true
    intro k hk hmem
    simp only [list_add_free_area] at hmem
    have hmem2 : p ^^^ shl1 (o - MIN_ORDER) ∈ s.free_area k := by
      split at hmem
      · rcases List.mem_cons.1 hmem with h1 | h1
        · exact absurd h1 (xor_shl1_ne p _)
        · exact h1
      · exact hmem
    exact list_empty_node_iff.1 h k hk hmem2

/-- C16, instance: page 0, allocated with order 12 by the first `buddy_alloc(4096)`. -/
theorem free_without_merge_witness :
    (state1.g_pages 0).order = 12 ∧ MIN_ORDER ≤ 12 ∧
    ((12 : Int) = MAX_ORDER ∨ list_empty_node (0 ^^^ shl1 (12 - MIN_ORDER)) state1 = true) ∧
    ∃ s1, buddy_free (PAGE_TO_ADDR 0) state1 = some s1 ∧
      s1.free_area 12 = 0 :: state1.free_area 12 ∧
      (∀ k, k ≠ 12 → s1.free_area k = state1.free_area k) ∧
      s1.g_pages = state1.g_pages :=
  ⟨by decide, by decide, Or.inr (by decide),
    free_without_merge state1 0 12 (by decide) (by decide) (Or.inr (by decide))⟩

/-! ## Claims C14, C18, C19 -/

theorem state1_list_order : ListOrderInv state1 :=
  ⟨reach_state1.inv.nodup_free,
    fun o ho p hp => reach_state1.inv.order_eq p o (tracked_of_free ho hp)⟩

/-- C14 (split postcondition), evaluated on the code: in the state after
`buddy_init(); buddy_alloc(4096)` the head of `free_area[13]` is page 4 (a multiple of 2, with
order 13); `split(13)` leaves `free_area[12] = [4, 2, 6]` and sets the order of the pages 4 and
6 to 12, while page 5, the right half of the block of pages 4 and 5, keeps order -1 and is
linked nowhere. -/
theorem split_links_block_behind :
    ListOrderInv state1 ∧ state1.free_area 13 = [4] ∧ state1.free_area 12 = [2] ∧
    (state1.g_pages 4).order = 13 ∧
    (split 13 state1).map (fun s => (s.free_area 12, s.free_area 13, (s.g_pages 4).order,
      (s.g_pages 5).order, (s.g_pages 6).order, list_empty_node 5 s)) =
      some ([4, 2, 6], [], 12, -1, 12, true) ∧
    4 + shl1 (13 - 1 - MIN_ORDER) = 5 :=
  ⟨state1_list_order, by decide, by decide, by decide, by decide, by decide⟩

/-- C18 (descriptor accesses of split stay in range), evaluated on the code: for the first
`split` after `buddy_init` (head page 0, order `MAX_ORDER`) the buddy page index is
`n_pages`, one past the last descriptor; for every head page of the table the index is in
the table, and differs from the head page, exactly when the order is below `MAX_ORDER`. -/
theorem split_buddy_index_behind_table :
    find_head MAX_ORDER state0 = some 0 ∧
    ADDR_TO_PAGE (BUDDY_ADDR (PAGE_TO_ADDR 0) MAX_ORDER) = n_pages ∧
    ¬ ADDR_TO_PAGE (BUDDY_ADDR (PAGE_TO_ADDR 0) MAX_ORDER) < n_pages ∧
    (split MAX_ORDER state0).map (fun s => s.free_area (MAX_ORDER - 1)) = some [0, 256] ∧
    (∀ p, p < n_pages →
      n_pages ≤ ADDR_TO_PAGE (BUDDY_ADDR (PAGE_TO_ADDR p) MAX_ORDER)) ∧
    (∀ p o, p < n_pages → MIN_ORDER ≤ o → o < MAX_ORDER →
      ADDR_TO_PAGE (BUDDY_ADDR (PAGE_TO_ADDR p) o) < n_pages ∧
      ADDR_TO_PAGE (BUDDY_ADDR (PAGE_TO_ADDR p) o) ≠ p) := by
  refine ⟨by decide, by decide, by decide, by decide, ?_, ?_⟩
  · intro p hp
    rw [buddy_page_xor p (by decide)]
    have e : shl1 (MAX_ORDER - MIN_ORDER) = 2 ^ 8 := rfl
    rw [e, n_pages_eq]
    by_contra hlt
    have h1 : p ^^^ 2 ^ 8 < 2 ^ 8 := by omega
    have h2 : p < 2 ^ 8 := by rw [n_pages_eq] at hp; omega
    have h3 := Nat.xor_lt_two_pow h2 h1
    rw [Nat.xor_cancel_left] at h3
    omega
  · intro p o hp hmin hmax
    rw [buddy_page_xor p hmin]
    refine ⟨?_, xor_shl1_ne p _⟩
    rw [n_pages_eq] at *
    have h2 : p < 2 ^ 8 := by omega
    have h1 : shl1 (o - MIN_ORDER) < 2 ^ 8 := by
      have := shl1_mono (show o - MIN_ORDER ≤ 7 by simp only [MIN_ORDER, MAX_ORDER] at *; omega)
      have e : shl1 7 = 128 := rfl
      omega
    have := Nat.xor_lt_two_pow h2 h1
    omega

/-- C19 (allocations lie inside the arena), evaluated on the code: after
`buddy_init(); buddy_alloc(4096)` the only member of `free_area[19]` is slot 256, which is
not a descriptor of the table and whose address is the end of the arena; for
`buddy_alloc(524288)` the scan stops at order 19, the look-up loop finds no descriptor and
the call has no result.  A call that does return an address returns the first page of a
descriptor of the table, with the requested bytes inside the arena. -/
theorem alloc_lookup_finds_no_descriptor :
    Reach state1 [(0, 12)] ∧ state1.free_area 19 = [256] ∧ ¬ 256 < n_pages ∧
    PAGE_TO_ADDR 256 = 2 ^ MAX_ORDER.toNat ∧
    first_fit 524288 state1 = some 19 ∧ find_head 19 state1 = none ∧
    buddy_alloc 524288 state1 = none ∧
    (∀ (s : State) (out : List Grant) (size : Int) (a : Nat) (s1 : State), Reach s out →
      buddy_alloc size s = some (some a, s1) →
      ADDR_TO_PAGE a < n_pages ∧ a = PAGE_TO_ADDR (ADDR_TO_PAGE a) ∧
      (a : Int) + size ≤ 2 ^ MAX_ORDER.toNat) := by
  refine ⟨reach_state1, by decide, by decide, by decide, by decide, by decide, rfl, ?_⟩
  intro s out size a s1 h ha
  obtain ⟨p, i, hp, hap, hi, _, hinv, hsz, _⟩ := (alloc_spec h.inv ha).2 a rfl
  have htp : tracked s1 ((a, i) :: out) p i := by
    apply tracked_of_out
    rw [← hap]
    exact List.mem_cons_self _ _
  have hal := hinv.align p i htp
  have hc := claim_eq (mem_orders.1 hi).1
  have hs := shl1_add_min (mem_orders.1 hi).1
  rw [hap, addr_to_page_to_addr]
  refine ⟨hp, rfl, ?_⟩
  have hin : p + shl1 (i - MIN_ORDER) ≤ n_pages := by
    rw [hc] at hal
    obtain ⟨m, hm⟩ := hal.1
    rw [n_pages_eq] at *
    have e : shl1 (i - MIN_ORDER) ∣ 256 := by
      rcases shl1_cases hi with ⟨e1, _⟩ | ⟨e1, _⟩ | ⟨e1, _⟩ | ⟨e1, _⟩ | ⟨e1, _⟩ | ⟨e1, _⟩ |
        ⟨e1, _⟩ | ⟨e1, _⟩ | ⟨e1, _⟩ <;> subst e1 <;> decide
    obtain ⟨t, ht⟩ := e
    have hpos := shl1_pos (i - MIN_ORDER)
    generalize shl1 (i - MIN_ORDER) = c at *
    -- p = 2 c m < 256 = c t, hence 2 m < t and p + c ≤ c t
    have h1 : 2 * m < t := by
      by_contra hge
      have : c * t ≤ c * (2 * m) := Nat.mul_le_mul_left c (by omega)
      have e2 : c * (2 * m) = 2 * c * m := by ring
      omega
    have h2 : c * (2 * m + 1) ≤ c * t := Nat.mul_le_mul_left c (by omega)
    have e3 : c * (2 * m + 1) = 2 * c * m + c := by ring
    omega
  have hbytes : PAGE_TO_ADDR p + shl1 i ≤ 2 ^ MAX_ORDER.toNat := by
    rw [hs]
    simp only [PAGE_TO_ADDR]
    rw [← Nat.add_mul]
    have e : (2 : Nat) ^ MAX_ORDER.toNat = n_pages * PAGE_SIZE := by decide
    rw [e]
    exact Nat.mul_le_mul_right _ hin
  have : ((PAGE_TO_ADDR p + shl1 i : Nat) : Int) ≤ ((2 ^ MAX_ORDER.toNat : Nat) : Int) :=
    Int.ofNat_le.2 hbytes
  push_cast at this
  omega

/-! ## Claim C12 -/

/-- C12 as stated fails for page 0: after `buddy_init` its list node is linked (it is the
member of `free_area[MAX_ORDER]`), not self-linked.  And `buddy_init` writes only the heads
`free_area[MIN_ORDER..MAX_ORDER]`: two prior states that differ in `free_area[0]` still
differ there afterwards. -/
theorem init_links_page_zero :
    list_empty_node 0 (buddy_init zero_state) = false ∧
    0 ∈ (buddy_init zero_state).free_area MAX_ORDER ∧
    (buddy_init zero_state).free_area 0 = [] ∧
    (buddy_init (list_add 7 0 zero_state)).free_area 0 = [7] :=
  ⟨by decide, by decide, by decide, by decide⟩

/-- C12 (amended): for every prior state `s`, in `buddy_init(s)` every descriptor `i` of the
table has `page_idx = i`, every descriptor other than page 0 has order `-1` and an unlinked
list node, `free_area[o]` is empty for `MIN_ORDER ≤ o < MAX_ORDER`, and `free_area[MAX_ORDER]`
holds exactly page 0, whose order is `MAX_ORDER`; the table and these heads are the same for
every prior state, and `buddy_init(buddy_init(s)) = buddy_init(s)`. -/
theorem init_canonical (s : State) :
    (∀ i, i < n_pages → ((buddy_init s).g_pages i).page_idx = i) ∧
    (∀ i, i < n_pages → i ≠ 0 →
      ((buddy_init s).g_pages i).order = -1 ∧ list_empty_node i (buddy_init s) = true) ∧
    (∀ o, MIN_ORDER ≤ o → o < MAX_ORDER → (buddy_init s).free_area o = []) ∧
    (buddy_init s).free_area MAX_ORDER = [0] ∧
    ((buddy_init s).g_pages 0).order = MAX_ORDER ∧
    (∀ t : State, (∀ o ∈ orders, (buddy_init t).free_area o = (buddy_init s).free_area o) ∧
      ∀ i, i < n_pages → (buddy_init t).g_pages i = (buddy_init s).g_pages i) ∧
    buddy_init (buddy_init s) = buddy_init s := by
  have hfa : ∀ (t : State) (o : Int), o ∈ orders →
      (buddy_init t).free_area o = if o = MAX_ORDER then [0] else [] :=
    fun t o ho => buddy_init_free_area t ho
  have hgp : ∀ (t : State) (i : Nat), i < n_pages →
      (buddy_init t).g_pages i =
        if i = 0 then { page_idx := 0, order := MAX_ORDER }
        else { page_idx := i, order := -1 } := by
    intro t i hi
    simp only [buddy_init, if_pos hi]
  refine ⟨?_, ?_, ?_, ?_, ?_, ?_, ?_⟩
  · exact (Inv_init s).page_idx
  · intro i hi h0
    constructor
    · rw [hgp s i hi, if_neg h0]
    · apply list_empty_node_true
      intro k hk hmem
      rw [hfa s k hk] at hmem
      split at hmem
      · exact h0 (List.mem_singleton.1 hmem)
      · simp at hmem
  · intro o h1 h2
    rw [hfa s o (mem_orders.2 ⟨h1, le_of_lt h2⟩), if_neg (ne_of_lt h2)]
  · rw [hfa s MAX_ORDER (by decide), if_pos rfl]
  · rfl
  · intro t
    refine ⟨fun o ho => by rw [hfa t o ho, hfa s o ho], fun i hi => by rw [hgp t i hi, hgp s i hi]⟩
  · unfold buddy_init
    simp only
    congr 1
    · funext k
      by_cases h1 : k = MAX_ORDER
      · simp only [if_pos h1]
      · by_cases h2 : MIN_ORDER ≤ k ∧ k ≤ MAX_ORDER
        · simp only [if_neg h1, if_pos h2]
        · simp only [if_neg h1, if_neg h2]
    · funext j
      by_cases h1 : j = 0
      · simp only [if_pos h1]
      · by_cases h2 : j < n_pages
        · simp only [if_neg h1, if_pos h2]
        · simp only [if_neg h1, if_neg h2]

/-! ## The block that `buddy_alloc` takes -/

theorem split_shape_head {i : Int} {s s2 : State} {hd : Nat} (h : split i s = some s2)
    (hfh : find_head i s = some hd) (hidx : (s.g_pages hd).page_idx = hd)
    (hmin : MIN_ORDER ≤ i) :
    (∀ k, s2.free_area k =
      if k = i - 1 then hd :: (s.free_area k).erase hd ++ [hd ^^^ shl1 (i - MIN_ORDER)]
      else (s.free_area k).erase hd) ∧
    (∀ j, (s2.g_pages j).page_idx = (s.g_pages j).page_idx) := by
  unfold split at h
  rw [hfh] at h
  simp only [Option.some.injEq, hidx] at h
  rw [buddy_page_xor hd hmin] at h
  constructor
  · intro k
    rw [← h]
    simp only [set_order_free_area, list_add_tail_free_area, list_move, list_add_free_area,
      list_del_init_free_area]
    split <;> rfl
  · intro j
    rw [← h, set_order_page_idx, set_order_page_idx]
    rfl

theorem granted_eq_required {size : Int} {i : Int} (hi : i ∈ orders)
    (hsz : size ≤ (shl1 i : Int)) (hmin : i = MIN_ORDER ∨ (shl1 i : Int) < 2 * size) :
    required_order size = i := by
  have hr := mem_orders.1 hi
  have h1 := (@required_order_le size i hi).2 hsz
  rcases hmin with hm | hm
  · have := required_order_cases size
    simp only [MIN_ORDER] at hm
    omega
  · by_contra hne
    have hlt : required_order size < i := lt_of_le_of_ne h1 hne
    have hc := required_order_cases size
    have hi1 : i - 1 ∈ orders := mem_orders.2 ⟨by
      simp only [MIN_ORDER] at *; omega, by omega⟩
    have h2 := (@required_order_le size (i - 1) hi1).1 (by omega)
    have h3 := shl1_pred (i := i) (by simp only [MIN_ORDER] at hr; omega)
    omega

/-- A successful or failing `buddy_alloc` that starts with head `hd` in the first fitting
list returns the address of `hd`, keeps every other member of every list, and leaves the
buddy computed by each `split` in the list one order below. -/
theorem alloc_fuel_left {size : Int} :
    ∀ (n : Nat) (s : State) (i : Int) (hd : Nat) (r : Option Nat) (s1 : State),
      first_fit size s = some i → find_head i s = some hd → (s.g_pages hd).page_idx = hd →
      buddy_alloc_fuel n size s = some (r, s1) →
      r = some (PAGE_TO_ADDR hd) ∧
      (∀ k x, x ≠ hd → x ∈ s.free_area k → x ∈ s1.free_area k) ∧
      ∃ g, g ∈ orders ∧ g ≤ i ∧ size ≤ (shl1 g : Int) ∧
        (g = MIN_ORDER ∨ (shl1 g : Int) < 2 * size) ∧
        ∀ k, g ≤ k → k < i → hd ^^^ shl1 (k + 1 - MIN_ORDER) ∈ s1.free_area k := by
  intro n
  induction n with
  | zero => intro s i hd r s1 _ _ _ h; simp [buddy_alloc_fuel] at h
  | succ n ih =>
    intro s i hd r s1 hff hfh hidx h
    obtain ⟨hi, _, hsz, _⟩ := first_fit_some hff
    have hr := mem_orders.1 hi
    unfold buddy_alloc_fuel at h
    rw [hff] at h
    simp only at h
    by_cases hc : i ≠ MIN_ORDER ∧ 2 * size ≤ (shl1 i : Int)
    · rw [if_pos hc] at h
      cases hsp : split i s with
      | none => rw [hsp] at h; simp at h
      | some s2 =>
        rw [hsp] at h
        simp only at h
        have hne := hc.1
        obtain ⟨hfa, hpi⟩ := split_shape_head hsp hfh hidx hr.1
        have hff2 := first_fit_after_split hff hc.1 hc.2 hsp
        have hfh2 : find_head (i - 1) s2 = some hd := by
          unfold find_head
          rw [hfa (i - 1), if_pos rfl]
          simp only [List.cons_append]
          rw [if_pos (find_head_some hfh).1]
        have hidx2 : (s2.g_pages hd).page_idx = hd := by rw [hpi, hidx]
        obtain ⟨h1, h2, g, hg, hgi, hg1, hg2, hg3⟩ := ih s2 (i - 1) hd r s1 hff2 hfh2 hidx2 h
        have hpers : ∀ k x, x ≠ hd → x ∈ s.free_area k → x ∈ s2.free_area k := by
          intro k x hx hmem
          rw [hfa k]
          have hE : x ∈ (s.free_area k).erase hd := (List.mem_erase_of_ne hx).2 hmem
          split
          · simp only [List.cons_append, List.mem_cons, List.mem_append]
            exact Or.inr (Or.inl hE)
          · exact hE
        refine ⟨h1, fun k x hx hmem => h2 k x hx (hpers k x hx hmem), g, hg, by omega, hg1,
          hg2, ?_⟩
        intro k hk1 hk2
        by_cases hk : k = i - 1
        · subst hk
          have e : i - 1 + 1 - MIN_ORDER = i - MIN_ORDER := by omega
          rw [e]
          apply h2 (i - 1) _ (xor_shl1_ne hd _)
          rw [hfa (i - 1), if_pos rfl]
          exact List.mem_append_right _ (List.mem_singleton.2 rfl)
        · exact hg3 k hk1 (by omega)
    · rw [if_neg hc, hfh] at h
      simp only [Option.some.injEq, Prod.mk.injEq] at h
      obtain ⟨h1, h2⟩ := h
      refine ⟨by rw [← h1, hidx], ?_, i, hi, le_refl _, hsz, ?_, fun k hk1 hk2 => by omega⟩
      · intro k x hx hmem
        rw [← h2]
        exact (List.mem_erase_of_ne hx).2 hmem
      · by_cases hm : i = MIN_ORDER
        · exact Or.inl hm
        · right
          by_contra hlt2
          exact hc ⟨hm, by omega⟩

/-- The left block is used: in every state whose descriptors carry their own index, when
`buddy_alloc(size)` returns an address, it is the address of the descriptor `hd` that was at
the head of `free_area[i]` when the call started, `i` being the smallest order from the
required order upwards with a non-empty free list; for every order `k` below `i` down to
the required order the descriptor that `split(k+1)` computed as buddy of `hd` is in
`free_area[k]` after the call, and every other member of every list is still in its list. -/
theorem left_block_is_used (s : State) (size : Int) (a : Nat) (s1 : State)
    (hidx : ∀ j, j < n_pages → (s.g_pages j).page_idx = j)
    (ha : buddy_alloc size s = some (some a, s1)) :
    ∃ i hd, first_fit size s = some i ∧
      (required_order size ≤ i ∧ i ≤ MAX_ORDER ∧
        ∀ k, required_order size ≤ k → k < i → s.free_area k = []) ∧
      (s.free_area i).head? = some hd ∧ hd < n_pages ∧ a = PAGE_TO_ADDR hd ∧
      (∀ k, required_order size ≤ k → k < i →
        hd ^^^ shl1 (k + 1 - MIN_ORDER) ∈ s1.free_area k) ∧
      (∀ k x, x ≠ hd → x ∈ s.free_area k → x ∈ s1.free_area k) := by
  have hreq : MIN_ORDER ≤ required_order size := by
    have := required_order_cases size
    simp only [MIN_ORDER]
    omega
  cases hff : first_fit size s with
  | none =>
    rw [alloc_of_first_fit_none hff] at ha
    simp at ha
  | some i =>
    obtain ⟨hi, hne, hsz, hfirst⟩ := first_fit_some hff
    have hr := mem_orders.1 hi
    cases hfh : find_head i s with
    | none =>
      exfalso
      unfold buddy_alloc at ha
      rw [fuel_eq] at ha
      unfold buddy_alloc_fuel at ha
      rw [hff] at ha
      simp only at ha
      split at ha
      · unfold split at ha
        rw [hfh] at ha
        simp at ha
      · rw [hfh] at ha
        simp at ha
    | some hd =>
      obtain ⟨hlt, t, ht⟩ := find_head_some hfh
      obtain ⟨h1, h2, g, hg, hgi, hg1, hg2, hg3⟩ :=
        alloc_fuel_left _ s i hd (some a) s1 hff hfh (hidx hd hlt) ha
      have hgreq := granted_eq_required hg hg1 hg2
      refine ⟨i, hd, rfl, ⟨(required_order_le hi).2 hsz, hr.2, ?_⟩, by rw [ht]; rfl, hlt,
        by simpa using h1, ?_, h2⟩
      · intro k hk1 hk2
        have hk : k ∈ orders := mem_orders.2 ⟨by omega, by omega⟩
        by_contra hnil
        exact hfirst k hk hk2 ⟨hnil, (required_order_le hk).1 hk1⟩
      · intro k hk1 hk2
        exact hg3 k (by omega) hk2

/-! ## The counted run of `buddy_alloc` -/

/-- C15 (left block is used) fails in its last part.  In `buddy_init(); buddy_alloc(4096)` the
head of `free_area[MAX_ORDER]`, page 0, is split eight times and its address is returned,
but the right half of the block of order `k+1` at page 0, page `2^(k-MIN_ORDER)`, is not in
`free_area[k]` afterwards for any `k` from 12 to 19: the only member of that list is page
`2^(k+1-MIN_ORDER)`, the descriptor that `split` computes with `BUDDY_ADDR(addr, order)`.
Page 1, the right half of the last split, is linked in no list.  In general (every state
whose descriptors carry their own index) the returned address is that of the head of the
first non-empty list from the required order upwards, and the descriptor found in
`free_area[k]` afterwards is `hd XOR 2^(k+1-MIN_ORDER)`. -/
theorem right_halves_not_in_lists :
    buddy_alloc 4096 state0 = some (some 0, state1) ∧
    first_fit 4096 state0 = some MAX_ORDER ∧ (state0.free_area MAX_ORDER).head? = some 0 ∧
    PAGE_TO_ADDR 0 = 0 ∧ required_order 4096 = 12 ∧
    (∀ k ∈ orders, k < MAX_ORDER →
      0 + shl1 (k - MIN_ORDER) ∉ state1.free_area k ∧
      state1.free_area k = [0 ^^^ shl1 (k + 1 - MIN_ORDER)]) ∧
    state1.free_area 19 = [256] ∧ 128 ∈ state1.free_area 18 ∧
    list_empty_node 1 state1 = true ∧
    (∀ (s : State) (size : Int) (a : Nat) (s1 : State),
      (∀ j, j < n_pages → (s.g_pages j).page_idx = j) →
      buddy_alloc size s = some (some a, s1) →
      ∃ i hd, first_fit size s = some i ∧
        (required_order size ≤ i ∧ i ≤ MAX_ORDER ∧
          ∀ k, required_order size ≤ k → k < i → s.free_area k = []) ∧
        (s.free_area i).head? = some hd ∧ hd < n_pages ∧ a = PAGE_TO_ADDR hd ∧
        (∀ k, required_order size ≤ k → k < i →
          hd ^^^ shl1 (k + 1 - MIN_ORDER) ∈ s1.free_area k) ∧
        (∀ k x, x ≠ hd → x ∈ s.free_area k → x ∈ s1.free_area k)) := by
  refine ⟨rfl, by decide, by decide, by decide, by decide, by decide, by decide, by decide,
    by decide, ?_⟩
  intro s size a s1 hidx ha
  exact left_block_is_used s size a s1 hidx ha

end Buddy
